import Mathlib

/-!
A shallow embedding of `src/shell.cpp`.

The C++ class `Shell` becomes the structure `Shell` below; its member functions become
functions in the namespace `Shell`.  A `std::string` is a list of characters (`Str`), a
`std::vector<std::string>` and the `std::deque<std::string>` are lists of `Str`.

Everything the class touches outside its three data members is made explicit:

* the process environment (`environ`), the two output streams and the status passed to
  `exit(3)` are further fields of the state;
* the results of the system calls (`chdir`, `getcwd`, `setenv`, `unsetenv`, `fork`,
  `execvp`, `waitpid`) are read from an oracle `OS`, so every statement quantifies over all
  outcomes of those calls;
* a ghost field `calls` records, in order, every handler that was entered together with the
  argument vector it received;
* an access `v[i]` that the source performs without a preceding bounds test is modelled with
  `v[i]?`, and the function returns `none` (undefined behaviour) when the index is out of range;
* standard input is the list of the lines still to be read, the empty list standing for end
  of input; a process that has called `exit` does not go on, and the status it reports is the
  low 8 bits of the value passed to `exit` or returned from `main`.
-/

/-- A `std::string`: the sequence of its characters. -/
abbrev Str := List Char

/-- The names of the handlers `executeCommand` can reach: the two branches that
`executeBuiltin` implements inline (`exit`, `pwd`) and the eight handler functions. -/
inductive Handler where
  | exitBranch
  | changeDirectory
  | pwdBranch
  | showHelp
  | executeEcho
  | executeEnv
  | executeExport
  | executeUnset
  | executeHistory
  | executeExternalCommand
deriving DecidableEq, Repr

/-- One entry of the ghost call log: which handler was entered, with which arguments. -/
structure Call where
  handler : Handler
  args : List Str
deriving DecidableEq, Repr

/-- The decoded status that `waitpid` stores: `WIFEXITED` with `WEXITSTATUS`, `WIFSIGNALED`
with `WTERMSIG`, or neither. -/
inductive ChildStatus where
  | exited (status : Nat)
  | signaled (sig : Nat)
  | other
deriving DecidableEq, Repr

/-- What `fork` / `execvp` / `waitpid` do for one launch.  `forkFailed`: `fork` returned a
negative value.  `launched execFailed wait`: a child was created; `execFailed` says whether
`execvp` returned `-1` in the child; `wait` is `none` when `waitpid` returned `-1` and the
decoded status otherwise. -/
inductive Spawn where
  | forkFailed
  | launched (execFailed : Bool) (wait : Option ChildStatus)
deriving DecidableEq, Repr

/-- The operating system as seen by the shell: the outcome of every system call it makes. -/
structure OS where
  /-- Whether `chdir(path) == 0`. -/
  chdir : Str → Bool
  /-- What `getcwd(nullptr, 0)` returns after a successful `chdir(path)` (`none`: null). -/
  getcwd : Str → Option Str
  /-- Whether `setenv(name, value, 1)` finds the memory it needs. -/
  setenvOk : Str → Str → Bool
  /-- The outcome of launching the given argument vector. -/
  spawn : List Str → Spawn
  /-- The text `perror` appends for the failure reported under the given tag. -/
  strerror : Str → Str

/-- The state of the interpreter.  The first three fields are the data members of the C++
class; the others are the process state around it. -/
structure Shell where
  currentDirectory : Str
  running : Bool
  commandHistory : List Str
  /-- The process environment `environ`: entries of the form `NAME=value`. -/
  environ : List Str
  /-- Everything written to `std::cout` so far. -/
  cout : Str
  /-- Everything written to `std::cerr` (and by `perror`) so far. -/
  cerr : Str
  /-- The argument of `exit(3)` once the process has called it. -/
  exitCode : Option Int
  /-- Ghost: the handlers entered so far. -/
  calls : List Call
deriving DecidableEq, Repr

namespace Shell

/-! ## Characters and C library functions -/

/-- The character `\`. -/
def backslash : Char := Char.ofNat 92

/-- The double-quote character. -/
def dquote : Char := Char.ofNat 34

/-- The single-quote character. -/
def squote : Char := Char.ofNat 39

/-- The function `std::isspace` in the "C" locale: space, `\t`, `\n`, `\v`, `\f`, `\r`. -/
def isspace (c : Char) : Bool :=
  c = ' ' || c = '\t' || c = '\n' || c = Char.ofNat 11 || c = Char.ofNat 12 || c = '\r'

/-- The function `isdigit`. -/
def isdigit (c : Char) : Bool := 48 ≤ c.toNat && c.toNat ≤ 57

/-- The view `s.c_str()` gives a C function: the characters before the first NUL. -/
def c_str (s : Str) : Str := s.takeWhile (fun c => c ≠ Char.ofNat 0)

/-- The digit loop of `strtol`: consume leading decimal digits, accumulating their value. -/
def digitsValue : Str → Nat → Nat
  | [], acc => acc
  | c :: cs, acc => if isdigit c then digitsValue cs (acc * 10 + (c.toNat - 48)) else acc

/-- The mathematical value `strtol(s, NULL, 10)` reads before range handling: leading
white space is skipped, one optional sign is taken, then the leading digits. -/
def strtolValue (s : Str) : Int :=
  match s.dropWhile isspace with
  | [] => 0
  | c :: cs =>
    if c = '-' then - (digitsValue cs 0 : Int)
    else if c = '+' then (digitsValue cs 0 : Int)
    else (digitsValue (c :: cs) 0 : Int)

/-- Conversion of an integer to a 32-bit `int` (two's complement wrap-around). -/
def toInt32 (n : Int) : Int := (n + 2 ^ 31) % 2 ^ 32 - 2 ^ 31

/-- The function `std::atoi` as the C library implements it: `(int) strtol(s, NULL, 10)`,
where `strtol` saturates at the bounds of a 64-bit `long`. -/
def atoi (s : Str) : Int :=
  toInt32 (max (-(2 ^ 63)) (min (strtolValue s) (2 ^ 63 - 1)))

/-- The call `s.find(c)`: the first position of `c`, or `none` for `npos`. -/
def find (s : Str) (c : Char) : Option Nat :=
  if c ∈ s then some (s.indexOf c) else none

/-- The call `s.find_last_of(c)`: the last position of `c`, or `none` for `npos`. -/
def find_last_of (s : Str) (c : Char) : Option Nat :=
  if c ∈ s then some (s.length - 1 - s.reverse.indexOf c) else none

/-- Whether the environment entry `e` binds `name`, i.e. starts with `name=`. -/
def bindsName (name : Str) (e : Str) : Bool := (name ++ ['=']).isPrefixOf e

/-- The function `getenv`: the value of the first entry that binds `name`. -/
def getenv (name : Str) (env : List Str) : Option Str :=
  (env.find? (bindsName name)).map (fun e => e.drop (name.length + 1))

/-- Replace the first entry that satisfies `p` by `entry`; the entries before and after it
stay as they are. -/
def replaceFirst (p : Str → Bool) (entry : Str) : List Str → List Str
  | [] => []
  | e :: es => if p e then entry :: es else e :: replaceFirst p entry es

/-- The function `setenv(name, value, 1)`: fails (`none`) on an empty name, a name with `=`, or
when the oracle denies the memory; otherwise the first entry binding `name` is replaced (later
entries for the same name, if any, are left alone), or, when no entry binds `name`, a new
entry is added at the end. -/
def setenv (os : OS) (name value : Str) (env : List Str) : Option (List Str) :=
  if name = [] ∨ '=' ∈ name ∨ os.setenvOk name value = false then none
  else if env.any (bindsName name) then
    some (replaceFirst (bindsName name) (name ++ ['='] ++ value) env)
  else some (env ++ [name ++ ['='] ++ value])

/-- The function `unsetenv(name)`: fails (`none`) on an empty name or a name with `=`;
otherwise every entry binding `name` is removed. -/
def unsetenv (name : Str) (env : List Str) : Option (List Str) :=
  if name = [] ∨ '=' ∈ name then none
  else some (env.filter (fun e => !bindsName name e))

/-- The loop `for (size_t i = lo; i < hi; ++i) body(i)`, for a body that changes neither `i`
nor `hi`. -/
def forRange {σ : Type} (lo hi : Nat) (body : Nat → σ → σ) (init : σ) : σ :=
  (List.range' lo (hi - lo)).foldl (fun st i => body i st) init

/-! ## Output and the call log -/

/-- Write `text` to `std::cout`. -/
def print (text : Str) (s : Shell) : Shell := { s with cout := s.cout ++ text }

/-- Write `text` to `std::cerr`. -/
def eprint (text : Str) (s : Shell) : Shell := { s with cerr := s.cerr ++ text }

/-- The function `perror(tag)`: the tag, a colon and the system error text on the error
stream. -/
def perror (os : OS) (tag : Str) (s : Shell) : Shell :=
  eprint (tag ++ ": ".toList ++ os.strerror tag ++ "\n".toList) s

/-- Ghost: record that a handler has been entered. -/
def enter (h : Handler) (args : List Str) (s : Shell) : Shell :=
  { s with calls := s.calls ++ [⟨h, args⟩] }

/-! ## `getShortPath` and `printPrompt` (source lines 68-79) -/

def getShortPath (s : Shell) : Str :=
  match find_last_of s.currentDirectory '/' with
  | none => s.currentDirectory
  | some lastSlash =>
    if lastSlash = 0 then s.currentDirectory
    else s.currentDirectory.drop (lastSlash + 1)

def printPrompt (s : Shell) : Shell :=
  print ("[shell:".toList ++ getShortPath s ++ "]$ ".toList) s

/-! ## `parseCommand` (source lines 81-117) -/

/-- The local variables of `parseCommand`. -/
structure ParseState where
  tokens : List Str
  current_token : Str
  in_quotes : Bool
  escape_next : Bool
deriving DecidableEq, Repr

/-- The values of the locals before the loop. -/
def parseInit : ParseState := ⟨[], [], false, false⟩

/-- One iteration of the loop of `parseCommand`, on the character `c = input[i]`. -/
def parseStep (st : ParseState) (c : Char) : ParseState :=
  if st.escape_next then
    { st with current_token := st.current_token ++ [c], escape_next := false }
  else if c = backslash then
    { st with escape_next := true }
  else if c = dquote ∨ c = squote then
    if st.in_quotes then { st with in_quotes := false } else { st with in_quotes := true }
  else if isspace c = true ∧ st.in_quotes = false then
    if st.current_token ≠ [] then
      { st with tokens := st.tokens ++ [st.current_token], current_token := [] }
    else st
  else
    { st with current_token := st.current_token ++ [c] }

/-- The whole loop, started in `st`. -/
def parseScan (st : ParseState) (input : Str) : ParseState := input.foldl parseStep st

/-- The code after the loop: "add the last token if it exists". -/
def parseFinish (st : ParseState) : List Str :=
  if st.current_token ≠ [] then st.tokens ++ [st.current_token] else st.tokens

def parseCommand (input : Str) : List Str := parseFinish (parseScan parseInit input)

/-! ## History (source lines 260-287) -/

def MAX_HISTORY : Nat := 100

def addToHistory (command : Str) (s : Shell) : Shell :=
  if command = [] ∨ (s.commandHistory ≠ [] ∧ s.commandHistory.getLast? = some command) then s
  else
    let pushed := s.commandHistory ++ [command]
    if pushed.length > MAX_HISTORY then { s with commandHistory := pushed.tail }
    else { s with commandHistory := pushed }

/-- The value of `start` that `executeHistory` computes.  The comparison is made between
`int`s, with the size cast to `int`; the subtraction cannot wrap because `n` is then positive
and below the size. -/
def historyStart (args : List Str) (size : Nat) : Nat :=
  if h : 1 < args.length then
    let n := atoi (c_str args[1])
    if n > 0 ∧ n < toInt32 (size : Int) then size - n.toNat else 0
  else 0

/-- The line `std::cout << (i + 1) << " " << commandHistory[i] << std::endl`. -/
def historyLine (i : Nat) (entry : Str) : Str :=
  (Nat.repr (i + 1)).toList ++ " ".toList ++ entry ++ "\n".toList

def executeHistory (args : List Str) (s : Shell) : Shell :=
  let s := enter Handler.executeHistory args s
  forRange (historyStart args s.commandHistory.length) s.commandHistory.length
    (fun i st => print (historyLine i (s.commandHistory.getD i [])) st) s

/-! ## The other built-in handlers (source lines 174-258) -/

def changeDirectory (os : OS) (args : List Str) (s : Shell) : Option Shell :=
  let s := enter Handler.changeDirectory args s
  let target : Option Str :=
    if args.length = 1 then
      some ((getenv "HOME".toList s.environ).getD "/".toList)
    else args[1]?
  match target with
  | none => none
  | some targetDir =>
    if os.chdir (c_str targetDir) then
      match os.getcwd (c_str targetDir) with
      | some cwd => some { s with currentDirectory := cwd }
      | none => some s
    else some (perror os "cd".toList s)

/-- The text `showHelp` prints. -/
def helpText : Str :=
  ("Built-in commands:\n" ++
   "  help          - Show this help message\n" ++
   "  exit [code]   - Exit the shell with optional exit code\n" ++
   "  cd [dir]      - Change directory (no argument goes to home)\n" ++
   "  pwd           - Print working directory\n" ++
   "  echo [args]   - Display arguments\n" ++
   "  env           - Display environment variables\n" ++
   "  export VAR=val - Set environment variable\n" ++
   "  unset VAR     - Remove environment variable\n" ++
   "  history       - Show command history\n" ++
   "\nAll other commands are executed as external programs.\n").toList

def showHelp (args : List Str) (s : Shell) : Shell :=
  print helpText (enter Handler.showHelp args s)

def executeEcho (args : List Str) (s : Shell) : Shell :=
  let s := enter Handler.executeEcho args s
  print "\n".toList
    (forRange 1 args.length
      (fun i st => print (args.getD i []) (if i > 1 then print " ".toList st else st)) s)

def executeEnv (args : List Str) (s : Shell) : Shell :=
  let s := enter Handler.executeEnv args s
  s.environ.foldl (fun st e => print (e ++ "\n".toList) st) s

def executeExport (os : OS) (args : List Str) (s : Shell) : Shell :=
  let s := enter Handler.executeExport args s
  if h : args.length < 2 then
    eprint "export: usage: export VAR=value\n".toList s
  else
    let assignment := args[1]
    match find assignment '=' with
    | none => eprint "export: usage: export VAR=value\n".toList s
    | some equals_pos =>
      let var_name := assignment.take equals_pos
      let var_value := assignment.drop (equals_pos + 1)
      match setenv os (c_str var_name) (c_str var_value) s.environ with
      | some env => { s with environ := env }
      | none => perror os "export".toList s

def executeUnset (os : OS) (args : List Str) (s : Shell) : Shell :=
  let s := enter Handler.executeUnset args s
  if h : args.length < 2 then
    eprint "unset: usage: unset VAR\n".toList s
  else
    match unsetenv (c_str args[1]) s.environ with
    | some env => { s with environ := env }
    | none => perror os "unset".toList s

/-! ## The process launcher (source lines 289-328) -/

def executeExternalCommand (os : OS) (args : List Str) (s : Shell) : Option Shell :=
  let s := enter Handler.executeExternalCommand args s
  match os.spawn (args.map c_str) with
  | Spawn.forkFailed => some (perror os "fork".toList s)
  | Spawn.launched execFailed wait =>
    -- the child: its message reaches the error stream before the parent resumes
    let afterChild : Option Shell :=
      if execFailed then
        (args[0]?).map (fun a0 =>
          eprint ("shell: ".toList ++ a0 ++ ": command not found\n".toList) s)
      else some s
    -- the parent
    afterChild.map (fun s =>
      match wait with
      | none => perror os "waitpid".toList s
      | some (ChildStatus.exited _) => s
      | some (ChildStatus.signaled sig) =>
        eprint ("Process terminated by signal ".toList ++ (Nat.repr sig).toList ++ "\n".toList) s
      | some ChildStatus.other => s)

/-! ## Dispatch (source lines 119-172) -/

def isBuiltinCommand (command : Str) : Bool :=
  command = "exit".toList || command = "cd".toList || command = "pwd".toList ||
  command = "help".toList || command = "echo".toList || command = "env".toList ||
  command = "export".toList || command = "unset".toList || command = "history".toList

def executeBuiltin (os : OS) (command : Str) (args : List Str) (s : Shell) : Option Shell :=
  if command = "exit".toList then
    let s := enter Handler.exitBranch args s
    if h : 1 < args.length then
      let exit_code := atoi (c_str args[1])
      some { print "Goodbye!\n".toList s with exitCode := some exit_code }
    else
      some { print "Goodbye!\n".toList s with running := false }
  else if command = "cd".toList then changeDirectory os args s
  else if command = "pwd".toList then
    some (print (s.currentDirectory ++ "\n".toList) (enter Handler.pwdBranch args s))
  else if command = "help".toList then some (showHelp args s)
  else if command = "echo".toList then some (executeEcho args s)
  else if command = "env".toList then some (executeEnv args s)
  else if command = "export".toList then some (executeExport os args s)
  else if command = "unset".toList then some (executeUnset os args s)
  else if command = "history".toList then some (executeHistory args s)
  else some s

def executeCommand (os : OS) (input : Str) (s : Shell) : Option Shell :=
  let args := parseCommand input
  if h : args = [] then some s
  else
    let s := addToHistory input s
    let command := args.head h
    if isBuiltinCommand command then executeBuiltin os command args s
    else executeExternalCommand os args s

/-! ## The interactive loop and `main` (source lines 31-65 and 331-335) -/

/-- The constructor `Shell()`: `cwd` is what `getcwd` returns when the process starts, `env`
the environment it starts with. -/
def init (cwd : Option Str) (env : List Str) : Shell where
  currentDirectory := cwd.getD "/".toList
  running := true
  commandHistory := []
  environ := env
  cout := []
  cerr := []
  exitCode := none
  calls := []

/-- The line `run` prints before the loop. -/
def banner : Str := "Simple C++ Shell - Type 'help' for commands, 'exit' to quit\n".toList

/-- The loop `while (running)` of `run`; `lines` are the lines still to come on standard
input, the empty list standing for end of input.  A process that has called `exit` does not
go on. -/
def runLoop (os : OS) : List Str → Shell → Option Shell
  | [], s => if s.running then some (print "\n".toList (printPrompt s)) else some s
  | input :: rest, s =>
    if s.running then
      if input = [] then runLoop os rest (printPrompt s)
      else
        match executeCommand os input (printPrompt s) with
        | none => none
        | some s2 => if s2.exitCode.isSome then some s2 else runLoop os rest s2
    else some s

def run (os : OS) (lines : List Str) (s : Shell) : Option Shell :=
  runLoop os lines (print banner s)

/-- The status a terminated process reports to its parent: the low 8 bits of the value
passed to `exit` or returned from `main`. -/
def exitStatus (code : Int) : Int := code % 256

/-- The status the process terminates with in the final state `s`: that of the `exit` call
if there was one, otherwise that of `return 0` in `main`. -/
def processStatus (s : Shell) : Int := exitStatus (s.exitCode.getD 0)

/-- The function `main`: construct the shell, run it, return 0. -/
def main (os : OS) (cwd : Option Str) (env : List Str) (lines : List Str) : Option Int :=
  (run os lines (init cwd env)).map processStatus

/-- Spec-side: the integer `n` written in decimal. -/
def decimal (n : Int) : Str :=
  if n < 0 then '-' :: (Nat.repr n.natAbs).toList else (Nat.repr n.toNat).toList

/-! ## Definitions the statements use -/

/-- Spec-side definition for the tokenizer on plain lines: the maximal runs of non-whitespace
characters, left to right (the pieces between whitespace characters that are not empty). -/
def nonWhitespaceRuns (line : Str) : List Str :=
  (line.splitOnP isspace).filter (fun run => !run.isEmpty)

/-- Spec-side: `s` with one backslash inserted before each of its characters. -/
def esc : Str → Str
  | [] => []
  | c :: cs => backslash :: c :: esc cs

/-- Spec-side: the fixed built-in name set with the handler that belongs to each name. -/
def builtinTable : List (Str × Handler) :=
  [("exit".toList, Handler.exitBranch), ("cd".toList, Handler.changeDirectory),
   ("pwd".toList, Handler.pwdBranch), ("help".toList, Handler.showHelp),
   ("echo".toList, Handler.executeEcho), ("env".toList, Handler.executeEnv),
   ("export".toList, Handler.executeExport), ("unset".toList, Handler.executeUnset),
   ("history".toList, Handler.executeHistory)]

/-- Spec-side: the built-in names. -/
def builtinNames : List Str := builtinTable.map Prod.fst

/-- Spec-side: the handler a first token is routed to: the table entry of a built-in name,
the process launcher for every other token. -/
def handlerOf (t : Str) : Handler :=
  (builtinTable.lookup t).getD Handler.executeExternalCommand

/-- Feeding a sequence of lines through `addToHistory`, one call per line, in order. -/
def addAllToHistory (lines : List Str) (s : Shell) : Shell :=
  lines.foldl (fun st line => addToHistory line st) s

/-- Spec-side: the listing of `entries`, one per line, labelled `first`, `first + 1`, ... -/
def numbered : Nat → List Str → Str
  | _, [] => []
  | first, e :: es =>
    (Nat.repr first).toList ++ " ".toList ++ e ++ "\n".toList ++ numbered (first + 1) es

/-- The 105 pairwise distinct commands `x`, `xx`, `xxx`, ... -/
def distinctCommands : List Str := (List.range 105).map (fun i => List.replicate (i + 1) 'x')

/-- A system in which every call succeeds and every child exits with status 0. -/
def sampleOS : OS where
  chdir := fun _ => true
  getcwd := fun path => some path
  setenvOk := fun _ _ => true
  spawn := fun _ => Spawn.launched false (some (ChildStatus.exited 0))
  strerror := fun _ => "No such file or directory".toList

/-- A freshly started interpreter in `/home/user` with an empty history. -/
def sampleShell : Shell where
  currentDirectory := "/home/user".toList
  running := true
  commandHistory := []
  environ := ["HOME=/home/user".toList, "PATH=/usr/bin:/bin".toList]
  cout := []
  cerr := []
  exitCode := none
  calls := []

/-- An interpreter whose history holds the four entries `ls`, `pwd`, `cd /tmp`, `env`. -/
def fourShell : Shell :=
  { sampleShell with
    commandHistory := ["ls".toList, "pwd".toList, "cd /tmp".toList, "env".toList] }

/-- An interpreter whose history holds the ten entries `c1`, ..., `c10`. -/
def tenShell : Shell :=
  { sampleShell with
    commandHistory := ["c1".toList, "c2".toList, "c3".toList, "c4".toList, "c5".toList,
      "c6".toList, "c7".toList, "c8".toList, "c9".toList, "c10".toList] }

/-- An interpreter whose history holds ten entries, the last being `history 3`. -/
def tenShellRepeat : Shell :=
  { sampleShell with
    commandHistory := ["c1".toList, "c2".toList, "c3".toList, "c4".toList, "c5".toList,
      "c6".toList, "c7".toList, "c8".toList, "c9".toList, "history 3".toList] }

/-- The locals of `parseCommand` with the tokens `pre` put in front of the collected ones. -/
def addTokens (pre : List Str) (st : ParseState) : ParseState :=
  { st with tokens := pre ++ st.tokens }

/-- Spec-side: a non-empty string free of whitespace, quote and backslash characters. -/
abbrev PlainWord (t : Str) : Prop :=
  t ≠ [] ∧ ∀ c ∈ t, isspace c = false ∧ c ≠ backslash ∧ c ≠ dquote ∧ c ≠ squote

/-- Spec-side: the last path segment of `d`, i.e. the substring after its last `/` (all of
`d` when it has none). -/
def lastSegment (d : Str) : Str := (d.reverse.takeWhile (fun x => x ≠ '/')).reverse

/-- The usage message of `executeExport`. -/
def exportUsage : Str := "export: usage: export VAR=value\n".toList

/-- Spec-side: the extra argument of `args` is missing or contains no `=`. -/
def ExportMalformed (args : List Str) : Prop :=
  args[1]? = none ∨ ∃ a, args[1]? = some a ∧ '=' ∉ a

/-- The NUL character, which ends a C string. -/
def nul : Char := Char.ofNat 0

/-- Spec-side: the prefix of `a` before its first `=`. -/
def nameOf (a : Str) : Str := a.takeWhile (fun x => x ≠ '=')

/-- Spec-side: the whole remainder of `a` after its first `=`. -/
def valueOf (a : Str) : Str := (a.dropWhile (fun x => x ≠ '=')).drop 1

/-- A system like `sampleOS` in which `setenv` finds no memory. -/
def noMemoryOS : OS :=
  { sampleOS with
    setenvOk := fun _ _ => false
    strerror := fun _ => "Cannot allocate memory".toList }

/-- The interpreter goes on as before: the running flag and the exit state are those of `s`. -/
def Continues (s s2 : Shell) : Prop := s2.running = s.running ∧ s2.exitCode = s.exitCode

/-- A system in which nothing works: `chdir` fails, `setenv` finds no memory, and every
launched program cannot be run, so that the child ends with status 127. -/
def hostileOS : OS where
  chdir := fun _ => false
  getcwd := fun _ => none
  setenvOk := fun _ _ => false
  spawn := fun _ => Spawn.launched true (some (ChildStatus.exited 127))
  strerror := fun _ => "Operation failed".toList

/-- A system in which every launched program is killed by signal 9. -/
def signalOS : OS :=
  { sampleOS with spawn := fun _ => Spawn.launched false (some (ChildStatus.signaled 9)) }

/-- A system in which `fork` fails. -/
def noForkOS : OS :=
  { sampleOS with
    spawn := fun _ => Spawn.forkFailed
    strerror := fun _ => "Resource temporarily unavailable".toList }

/-- Spec-side: what the launched side writes: the "command not found" message for `name`
exactly when the executable cannot be run. -/
def childOutput (execFailed : Bool) (name : Str) (s : Shell) : Shell :=
  if execFailed then eprint ("shell: ".toList ++ name ++ ": command not found\n".toList) s
  else s

/-- Spec-side: the directory `cd` is asked to change to: the value of `HOME`, or `/` when it
is unset, if there is no extra argument; the extra argument itself otherwise. -/
def cdTarget (args : List Str) (env : List Str) : Str :=
  match args with
  | _ :: a :: _ => a
  | _ => (getenv "HOME".toList env).getD "/".toList

/-- An interpreter like `sampleShell` whose environment has `HOME=/tmp`. -/
def tmpShell : Shell :=
  { sampleShell with environ := ["HOME=/tmp".toList, "PATH=/usr/bin:/bin".toList] }

/-- The value `executeHistory` gives `start` when the extra argument converts to the integer
`n` and the history has `size` entries (the body of `historyStart` for that `n`). -/
def startFor (n : Int) (size : Nat) : Nat :=
  if n > 0 ∧ n < toInt32 (size : Int) then size - n.toNat else 0

/-- The indices `i` at which the loop of `executeHistory` reads `commandHistory[i]`. -/
def historyReads (args : List Str) (size : Nat) : List Nat :=
  List.range' (historyStart args size) (size - historyStart args size)

/-- An interpreter whose environment binds `FOO` twice: `FOO=1`, `BAR=x`, `FOO=2`. -/
def dupShell : Shell :=
  { sampleShell with environ := ["FOO=1".toList, "BAR=x".toList, "FOO=2".toList] }

/-! # Theorems -/

theorem modifyHead_self {α : Type} (l : List α) : l.modifyHead (fun x => x) = l := by
  cases l <;> rfl

theorem parseScan_nil (st : ParseState) : parseScan st [] = st := rfl

theorem parseScan_cons (st : ParseState) (c : Char) (cs : Str) :
    parseScan st (c :: cs) = parseScan (parseStep st c) cs := rfl

theorem parseScan_append (st : ParseState) (a b : Str) :
    parseScan st (a ++ b) = parseScan (parseScan st a) b := by
  simp [parseScan, List.foldl_append]

/-- Outside quotes and escapes, on a line without backslash and quotes, the scan followed by
the final emission adds the non-empty pieces of `current_token ++ line` split at white space. -/
theorem parseFinish_scan_plain (line : Str)
    (h : ∀ c ∈ line, c ≠ backslash ∧ c ≠ dquote ∧ c ≠ squote) (toks : List Str) (cur : Str) :
    parseFinish (parseScan ⟨toks, cur, false, false⟩ line) =
      toks ++ ((line.splitOnP isspace).modifyHead (cur ++ ·)).filter (fun run => !run.isEmpty) := by
  induction line generalizing toks cur with
  | nil =>
    cases cur <;> simp [parseScan_nil, parseFinish, List.splitOnP_nil]
  | cons c cs ih =>
    have hc := h c (List.mem_cons_self _ _)
    have hcs : ∀ d ∈ cs, d ≠ backslash ∧ d ≠ dquote ∧ d ≠ squote :=
      fun d hd => h d (List.mem_cons_of_mem _ hd)
    rw [parseScan_cons, List.splitOnP_cons]
    by_cases hsp : isspace c = true
    · cases cur with
      | nil =>
        have : parseStep ⟨toks, [], false, false⟩ c = ⟨toks, [], false, false⟩ := by
          simp [parseStep, hc.1, hc.2.1, hc.2.2, hsp]
        rw [this, ih hcs]
        simp [hsp, modifyHead_self]
      | cons x xs =>
        have : parseStep ⟨toks, x :: xs, false, false⟩ c = ⟨toks ++ [x :: xs], [], false, false⟩ := by
          simp [parseStep, hc.1, hc.2.1, hc.2.2, hsp]
        rw [this, ih hcs]
        simp [hsp, modifyHead_self]
    · have : parseStep ⟨toks, cur, false, false⟩ c = ⟨toks, cur ++ [c], false, false⟩ := by
        simp [parseStep, hc.1, hc.2.1, hc.2.2, hsp]
      rw [this, ih hcs]
      simp [hsp, List.modifyHead_modifyHead]
      congr 2

/-- C1. On a line without backslash and without quote characters, `parseCommand` returns
exactly the maximal runs of non-whitespace characters of the line, in order. -/
theorem parseCommand_plain (line : Str)
    (h : ∀ c ∈ line, c ≠ backslash ∧ c ≠ dquote ∧ c ≠ squote) :
    parseCommand line = nonWhitespaceRuns line := by
  have := parseFinish_scan_plain line h [] []
  simpa [parseCommand, parseInit, nonWhitespaceRuns, modifyHead_self] using this

theorem parseCommand_plain_witness :
    (∀ c ∈ "echo hello world".toList, c ≠ backslash ∧ c ≠ dquote ∧ c ≠ squote) ∧
    parseCommand "echo hello world".toList = ["echo".toList, "hello".toList, "world".toList] ∧
    parseCommand " \t echo  hello\t\rworld \n".toList =
      ["echo".toList, "hello".toList, "world".toList] :=
  ⟨by decide, (parseCommand_plain _ (by decide)).trans (by decide),
    (parseCommand_plain _ (by decide)).trans (by decide)⟩

/-! ### C2: quoted regions -/

/-- Inside a quoted region, characters other than the backslash and the quotes are appended
to the current token, white space included. -/
theorem parseScan_in_quotes (q : Str)
    (h : ∀ ch ∈ q, ch ≠ backslash ∧ ch ≠ dquote ∧ ch ≠ squote) (toks : List Str) (cur : Str) :
    parseScan ⟨toks, cur, true, false⟩ q = ⟨toks, cur ++ q, true, false⟩ := by
  induction q generalizing cur with
  | nil => simp [parseScan_nil]
  | cons x xs ih =>
    have hx := h x (List.mem_cons_self _ _)
    have : parseStep ⟨toks, cur, true, false⟩ x = ⟨toks, cur ++ [x], true, false⟩ := by
      simp [parseStep, hx.1, hx.2.1, hx.2.2]
    rw [parseScan_cons, this, ih (fun d hd => h d (List.mem_cons_of_mem _ hd))]
    simp

/-- A quote character toggles `in_quotes` and leaves everything else alone. -/
theorem parseStep_quote (toks : List Str) (cur : Str) (b : Bool) (o : Char)
    (ho : o = dquote ∨ o = squote) :
    parseStep ⟨toks, cur, b, false⟩ o = ⟨toks, cur, !b, false⟩ := by
  rcases ho with rfl | rfl <;> cases b <;> simp [parseStep] <;> decide

/-- C2. Quotes are removed and protect white space, and either quote character closes a region
opened by either: `echo <o>q<c> foo` tokenizes to `echo`, `q`, `foo` for every non-empty `q`
without quotes and backslashes. -/
theorem parseCommand_quoted (q : Str) (hq : q ≠ [])
    (hplain : ∀ ch ∈ q, ch ≠ backslash ∧ ch ≠ dquote ∧ ch ≠ squote)
    (o c : Char) (ho : o = dquote ∨ o = squote) (hc : c = dquote ∨ c = squote) :
    parseCommand ("echo ".toList ++ [o] ++ q ++ [c] ++ " foo".toList) =
      ["echo".toList, q, "foo".toList] := by
  have h1 : parseScan parseInit "echo ".toList = ⟨["echo".toList], [], false, false⟩ := by
    decide
  have h2 : parseStep ⟨["echo".toList], q, false, false⟩ ' ' =
      ⟨["echo".toList, q], [], false, false⟩ := by
    have e1 : ¬ (' ' = backslash) := by decide
    have e2 : ¬ (' ' = dquote) := by decide
    have e3 : ¬ (' ' = squote) := by decide
    have e4 : isspace ' ' = true := by decide
    simp [parseStep, e1, e2, e3, e4, hq]
  have h3 : parseFinish (parseScan ⟨["echo".toList, q], [], false, false⟩ "foo".toList) =
      ["echo".toList, q, "foo".toList] := by
    have := parseFinish_scan_plain "foo".toList (by decide) ["echo".toList, q] []
    rw [this]
    have e : (List.splitOnP isspace "foo".toList) = ["foo".toList] := by decide
    rw [e]
    simp
  have split : " foo".toList = ' ' :: "foo".toList := rfl
  have ho2 := fun toks cur b => parseStep_quote toks cur b o ho
  have hc2 := fun toks cur b => parseStep_quote toks cur b c hc
  simp only [parseCommand, parseScan_append, h1, parseScan_cons, parseScan_nil, ho2, hc2,
    parseScan_in_quotes q hplain, split, Bool.not_false, Bool.not_true, List.nil_append, h2, h3]

theorem parseCommand_quoted_witness :
    parseCommand ("echo ".toList ++ [dquote] ++ "hello world".toList ++ [dquote] ++ " foo".toList)
      = ["echo".toList, "hello world".toList, "foo".toList] ∧
    parseCommand ("echo ".toList ++ [squote] ++ " a\tb ".toList ++ [dquote] ++ " foo".toList)
      = ["echo".toList, " a\tb ".toList, "foo".toList] :=
  ⟨parseCommand_quoted "hello world".toList (by decide) (by decide) dquote dquote
      (Or.inl rfl) (Or.inl rfl),
   parseCommand_quoted " a\tb ".toList (by decide) (by decide) squote dquote
      (Or.inr rfl) (Or.inl rfl)⟩

/-! ### C3: escapes -/

/-- Scanning `esc s` from any state without a pending escape appends `s`, verbatim, to the
current token and changes nothing else: no character of `s` is given a meaning. -/
theorem parseScan_esc (s : Str) (toks : List Str) (cur : Str) (b : Bool) :
    parseScan ⟨toks, cur, b, false⟩ (esc s) = ⟨toks, cur ++ s, b, false⟩ := by
  induction s generalizing cur with
  | nil => simp [esc, parseScan_nil]
  | cons x xs ih =>
    have hb : parseStep ⟨toks, cur, b, false⟩ backslash = ⟨toks, cur, b, true⟩ := by
      simp [parseStep]
    have hx : parseStep ⟨toks, cur, b, true⟩ x = ⟨toks, cur ++ [x], b, false⟩ := by
      simp [parseStep]
    rw [esc, parseScan_cons, hb, parseScan_cons, hx, ih]
    simp

/-- C3. An escaped character is always literal: scanning `esc s` appends exactly `s` to the
current token in every state without pending escape; hence `parseCommand (esc s) = [s]` for
non-empty `s`, also when `esc s` stands between two quote characters; and `echo a\ b`
tokenizes to `echo`, `a b`. -/
theorem parseCommand_esc (s : Str) (hs : s ≠ []) :
    (∀ toks cur b, parseScan ⟨toks, cur, b, false⟩ (esc s) = ⟨toks, cur ++ s, b, false⟩) ∧
    parseCommand (esc s) = [s] ∧
    (∀ o c, (o = dquote ∨ o = squote) → (c = dquote ∨ c = squote) →
      parseCommand ([o] ++ esc s ++ [c]) = [s]) ∧
    parseCommand ("echo a".toList ++ [backslash] ++ " b".toList) =
      ["echo".toList, "a b".toList] := by
  refine ⟨fun toks cur b => parseScan_esc s toks cur b, ?_, ?_, by decide⟩
  · simp [parseCommand, parseInit, parseScan_esc, parseFinish, hs]
  · intro o c ho hc
    have ho2 := fun toks cur b => parseStep_quote toks cur b o ho
    have hc2 := fun toks cur b => parseStep_quote toks cur b c hc
    simp [parseCommand, parseInit, parseScan_append, parseScan_cons, parseScan_nil, ho2, hc2,
      parseScan_esc, parseFinish, hs]

theorem parseCommand_esc_witness :
    parseCommand (esc ("a b".toList ++ [backslash, dquote, squote])) =
      ["a b".toList ++ [backslash, dquote, squote]] ∧
    parseCommand ([dquote] ++ esc ("a b".toList ++ [backslash, dquote, squote]) ++ [squote]) =
      ["a b".toList ++ [backslash, dquote, squote]] :=
  ⟨(parseCommand_esc ("a b".toList ++ [backslash, dquote, squote]) (by decide)).2.1,
   (parseCommand_esc ("a b".toList ++ [backslash, dquote, squote]) (by decide)).2.2.1
      dquote squote (Or.inl rfl) (Or.inr rfl)⟩

/-! ### C5: no empty token -/

/-- One loop iteration keeps every collected token non-empty. -/
theorem parseStep_tokens_ne_nil (st : ParseState) (c : Char)
    (h : [] ∉ st.tokens) : [] ∉ (parseStep st c).tokens := by
  unfold parseStep
  split_ifs with h1 h2 h3 h4 h5 h6
  all_goals first
    | exact h
    | (simp only [List.mem_append, List.mem_singleton, not_or]
       exact ⟨h, fun e => h6 e.symm⟩)

theorem parseScan_tokens_ne_nil (input : Str) (st : ParseState)
    (h : [] ∉ st.tokens) : [] ∉ (parseScan st input).tokens := by
  induction input generalizing st with
  | nil => simpa [parseScan_nil] using h
  | cons c cs ih => exact ih _ (parseStep_tokens_ne_nil st c h)

/-- C5. No element of `parseCommand line` is the empty string, for every line; consecutive
quote characters produce no token: the lines `""` and two single quotes tokenize to the empty
sequence, and `a "" b` to `a`, `b`. -/
theorem parseCommand_no_empty_token :
    (∀ line : Str, [] ∉ parseCommand line) ∧
    parseCommand [dquote, dquote] = [] ∧
    parseCommand [squote, squote] = [] ∧
    parseCommand ("a ".toList ++ [dquote, dquote] ++ " b".toList) = ["a".toList, "b".toList] ∧
    parseCommand ("a ".toList ++ [squote, squote] ++ " b".toList) = ["a".toList, "b".toList] := by
  refine ⟨fun line => ?_, by decide, by decide, by decide, by decide⟩
  have h := parseScan_tokens_ne_nil line parseInit (by simp [parseInit])
  unfold parseCommand parseFinish
  split_ifs with h1
  · simp only [List.mem_append, List.mem_singleton, not_or]
    exact ⟨h, fun e => h1 e.symm⟩
  · exact h

/-! ### C4: blank lines -/

/-- A whitespace character is neither the backslash nor a quote. -/
theorem isspace_plain (c : Char) (h : isspace c = true) :
    c ≠ backslash ∧ c ≠ dquote ∧ c ≠ squote := by
  simp only [isspace, Bool.or_eq_true, decide_eq_true_eq] at h
  rcases h with ((((h | h) | h) | h) | h) | h <;> subst h <;> decide

theorem parseScan_blank (line : Str) (hws : ∀ c ∈ line, isspace c = true) :
    parseScan parseInit line = parseInit := by
  induction line with
  | nil => rfl
  | cons c cs ih =>
    have hc := hws c (List.mem_cons_self _ _)
    have hp := isspace_plain c hc
    have : parseStep parseInit c = parseInit := by
      simp [parseStep, parseInit, hp.1, hp.2.1, hp.2.2, hc]
    rw [parseScan_cons, this, ih (fun d hd => hws d (List.mem_cons_of_mem _ hd))]

/-- C4. For a line that is empty or consists of whitespace characters only, `parseCommand`
returns the empty sequence and `executeCommand` returns with the state unchanged: the same
history, running flag, cached directory, environment and output, and no handler entered. -/
theorem executeCommand_blank (os : OS) (line : Str) (hws : ∀ c ∈ line, isspace c = true)
    (s : Shell) :
    parseCommand line = [] ∧ executeCommand os line s = some s := by
  have hp : parseCommand line = [] := by
    rw [parseCommand, parseScan_blank line hws]; rfl
  exact ⟨hp, by simp [executeCommand, hp]⟩

theorem executeCommand_blank_witness :
    (parseCommand " \t \r\n".toList = [] ∧
      executeCommand sampleOS " \t \r\n".toList sampleShell = some sampleShell) ∧
    (parseCommand [] = [] ∧ executeCommand sampleOS [] sampleShell = some sampleShell) :=
  ⟨executeCommand_blank sampleOS " \t \r\n".toList (by decide) sampleShell,
    executeCommand_blank sampleOS [] (by decide) sampleShell⟩

/-! ### C6: dispatch -/

theorem calls_print (text : Str) (s : Shell) : (print text s).calls = s.calls := rfl

theorem calls_eprint (text : Str) (s : Shell) : (eprint text s).calls = s.calls := rfl

theorem calls_perror (os : OS) (tag : Str) (s : Shell) : (perror os tag s).calls = s.calls := rfl

theorem calls_enter (h : Handler) (args : List Str) (s : Shell) :
    (enter h args s).calls = s.calls ++ [⟨h, args⟩] := rfl

/-- A fold whose steps keep the call log keeps the call log. -/
theorem calls_foldl {α : Type} (f : Shell → α → Shell) (hf : ∀ st a, (f st a).calls = st.calls)
    (l : List α) (s : Shell) : (l.foldl f s).calls = s.calls := by
  induction l generalizing s with
  | nil => rfl
  | cons a l ih => rw [List.foldl_cons, ih, hf]

theorem calls_executeHistory (args : List Str) (s : Shell) :
    (executeHistory args s).calls = s.calls ++ [⟨Handler.executeHistory, args⟩] := by
  unfold executeHistory forRange
  refine (calls_foldl _ (fun st i => ?_) _ _).trans rfl
  rfl

theorem calls_executeEcho (args : List Str) (s : Shell) :
    (executeEcho args s).calls = s.calls ++ [⟨Handler.executeEcho, args⟩] := by
  unfold executeEcho forRange
  refine (calls_foldl _ (fun st i => ?_) _ _).trans rfl
  dsimp only
  split_ifs <;> rfl

theorem calls_executeEnv (args : List Str) (s : Shell) :
    (executeEnv args s).calls = s.calls ++ [⟨Handler.executeEnv, args⟩] := by
  unfold executeEnv
  refine (calls_foldl _ (fun st e => ?_) _ _).trans rfl
  rfl

theorem calls_executeExport (os : OS) (args : List Str) (s : Shell) :
    (executeExport os args s).calls = s.calls ++ [⟨Handler.executeExport, args⟩] := by
  unfold executeExport
  split_ifs
  · rfl
  · dsimp only
    split
    · rfl
    · split <;> rfl

theorem calls_executeUnset (os : OS) (args : List Str) (s : Shell) :
    (executeUnset os args s).calls = s.calls ++ [⟨Handler.executeUnset, args⟩] := by
  unfold executeUnset
  split_ifs
  · rfl
  · dsimp only
    split <;> rfl

theorem calls_changeDirectory (os : OS) (args : List Str) (hargs : args ≠ []) (s : Shell) :
    ∃ s2, changeDirectory os args s = some s2 ∧
      s2.calls = s.calls ++ [⟨Handler.changeDirectory, args⟩] := by
  obtain ⟨target, ht⟩ : ∃ target,
      (if args.length = 1 then
        some ((getenv "HOME".toList (enter Handler.changeDirectory args s).environ).getD
          "/".toList)
       else args[1]?) = some target := by
    split_ifs with h1
    · exact ⟨_, rfl⟩
    · have h2 : 1 < args.length := by
        have : args.length ≠ 0 := fun h0 => hargs (List.length_eq_zero.mp h0)
        omega
      exact ⟨args[1], by simp [h2]⟩
  unfold changeDirectory
  simp only [ht]
  split_ifs
  · split
    · exact ⟨_, rfl, rfl⟩
    · exact ⟨_, rfl, rfl⟩
  · exact ⟨_, rfl, rfl⟩

theorem calls_executeExternalCommand (os : OS) (args : List Str) (hargs : args ≠ [])
    (s : Shell) :
    ∃ s2, executeExternalCommand os args s = some s2 ∧
      s2.calls = s.calls ++ [⟨Handler.executeExternalCommand, args⟩] := by
  obtain ⟨a, as, rfl⟩ := List.exists_cons_of_ne_nil hargs
  unfold executeExternalCommand
  cases os.spawn (List.map c_str (a :: as)) with
  | forkFailed => exact ⟨_, rfl, rfl⟩
  | launched execFailed wait =>
    cases execFailed <;> rcases wait with _ | (_ | _ | _) <;>
      simp [enter, eprint, perror]

/-- The test `isBuiltinCommand` accepts exactly the names of the table. -/
theorem isBuiltinCommand_iff (t : Str) : isBuiltinCommand t = true ↔ t ∈ builtinNames := by
  simp [isBuiltinCommand, builtinNames, builtinTable, or_assoc]

/-- Every name of the table reaches its own branch of `executeBuiltin`. -/
theorem executeBuiltin_calls (os : OS) (command : Str) (args : List Str) (hargs : args ≠ [])
    (hb : command ∈ builtinNames) (s : Shell) :
    ∃ s2, executeBuiltin os command args s = some s2 ∧
      s2.calls = s.calls ++ [⟨handlerOf command, args⟩] := by
  simp only [builtinNames, builtinTable, List.map_cons, List.map_nil, List.mem_cons,
    List.mem_singleton, List.not_mem_nil, or_false] at hb
  rcases hb with h | h | h | h | h | h | h | h | h <;> subst h
  · unfold executeBuiltin
    rw [if_pos rfl]
    dsimp only
    split_ifs <;> exact ⟨_, rfl, rfl⟩
  · unfold executeBuiltin
    rw [if_neg (by decide), if_pos rfl]
    exact calls_changeDirectory os args hargs s
  · unfold executeBuiltin
    rw [if_neg (by decide), if_neg (by decide), if_pos rfl]
    exact ⟨_, rfl, rfl⟩
  · unfold executeBuiltin
    rw [if_neg (by decide), if_neg (by decide), if_neg (by decide), if_pos rfl]
    exact ⟨_, rfl, rfl⟩
  · unfold executeBuiltin
    rw [if_neg (by decide), if_neg (by decide), if_neg (by decide), if_neg (by decide),
      if_pos rfl]
    exact ⟨_, rfl, calls_executeEcho args s⟩
  · unfold executeBuiltin
    rw [if_neg (by decide), if_neg (by decide), if_neg (by decide), if_neg (by decide),
      if_neg (by decide), if_pos rfl]
    exact ⟨_, rfl, calls_executeEnv args s⟩
  · unfold executeBuiltin
    rw [if_neg (by decide), if_neg (by decide), if_neg (by decide), if_neg (by decide),
      if_neg (by decide), if_neg (by decide), if_pos rfl]
    exact ⟨_, rfl, calls_executeExport os args s⟩
  · unfold executeBuiltin
    rw [if_neg (by decide), if_neg (by decide), if_neg (by decide), if_neg (by decide),
      if_neg (by decide), if_neg (by decide), if_neg (by decide), if_pos rfl]
    exact ⟨_, rfl, calls_executeUnset os args s⟩
  · unfold executeBuiltin
    rw [if_neg (by decide), if_neg (by decide), if_neg (by decide), if_neg (by decide),
      if_neg (by decide), if_neg (by decide), if_neg (by decide), if_neg (by decide),
      if_pos rfl]
    exact ⟨_, rfl, calls_executeHistory args s⟩

theorem addAllToHistory_append (a b : List Str) (s : Shell) :
    addAllToHistory (a ++ b) s = addAllToHistory b (addAllToHistory a s) := by
  simp [addAllToHistory, List.foldl_append]

theorem addAllToHistory_concat (a : List Str) (x : Str) (s : Shell) :
    addAllToHistory (a ++ [x]) s = addToHistory x (addAllToHistory a s) := by
  rw [addAllToHistory_append]; rfl

/-- The history after one `addToHistory`, as a function of the history before. -/
theorem commandHistory_addToHistory (command : Str) (s : Shell) :
    (addToHistory command s).commandHistory =
      if command = [] ∨ s.commandHistory.getLast? = some command then s.commandHistory
      else if s.commandHistory.length + 1 > MAX_HISTORY then
        (s.commandHistory ++ [command]).tail
      else s.commandHistory ++ [command] := by
  unfold addToHistory
  by_cases h1 : command = []
  · simp [h1]
  · by_cases h2 : s.commandHistory.getLast? = some command
    · have h3 : s.commandHistory ≠ [] := by
        intro h; rw [h] at h2; simp at h2
      simp [h1, h2, h3]
    · simp only [h1, h2, false_or, and_false, if_false, List.length_append, List.length_singleton]
      split_ifs <;> rfl

/-- One `addToHistory` keeps the history free of equal neighbours. -/
theorem addToHistory_chain (command : Str) (s : Shell)
    (h : List.Chain' (· ≠ ·) s.commandHistory) :
    List.Chain' (· ≠ ·) (addToHistory command s).commandHistory := by
  rw [commandHistory_addToHistory]
  have hpush : ¬ (command = [] ∨ s.commandHistory.getLast? = some command) →
      List.Chain' (· ≠ ·) (s.commandHistory ++ [command]) := by
    intro hc
    rw [List.chain'_append]
    refine ⟨h, List.chain'_singleton _, ?_⟩
    intro x hx y hy
    simp only [List.head?_cons, Option.mem_def, Option.some.injEq] at hy
    subst hy
    intro hxy
    exact hc (Or.inr (by rw [Option.mem_def] at hx; rw [hx, hxy]))
  split_ifs with h1 h2
  · exact h
  · exact (hpush h1).tail
  · exact hpush h1

/-- C7. Starting from the empty history, after any finite sequence of `addToHistory` calls no
two adjacent entries of `commandHistory` are equal; and the calls with `ls`, `ls`, `pwd`, `ls`
leave exactly `ls`, `pwd`, `ls`. -/
theorem history_no_adjacent_duplicates (s : Shell) (h0 : s.commandHistory = [])
    (lines : List Str) :
    List.Chain' (· ≠ ·) (addAllToHistory lines s).commandHistory ∧
    (addAllToHistory ["ls".toList, "ls".toList, "pwd".toList, "ls".toList] s).commandHistory =
      ["ls".toList, "pwd".toList, "ls".toList] := by
  constructor
  · induction lines using List.reverseRecOn with
    | nil => simp [addAllToHistory, h0]
    | append_singleton l x ih =>
      rw [addAllToHistory_concat]
      exact addToHistory_chain x _ ih
  · simp [addAllToHistory, List.foldl, commandHistory_addToHistory, addToHistory, h0, MAX_HISTORY]

theorem history_no_adjacent_duplicates_witness :
    List.Chain' (· ≠ ·) (addAllToHistory distinctCommands sampleShell).commandHistory ∧
    (addAllToHistory ["ls".toList, "ls".toList, "pwd".toList, "ls".toList]
      sampleShell).commandHistory = ["ls".toList, "pwd".toList, "ls".toList] :=
  history_no_adjacent_duplicates sampleShell rfl distinctCommands

/-- With non-empty lines and no two consecutive lines equal, the history after feeding the
lines is the line sequence without its first `length - 100` lines. -/
theorem commandHistory_addAllToHistory (s : Shell) (h0 : s.commandHistory = [])
    (lines : List Str) (hne : ∀ l ∈ lines, l ≠ []) (hadj : List.Chain' (· ≠ ·) lines) :
    (addAllToHistory lines s).commandHistory = lines.drop (lines.length - MAX_HISTORY) := by
  induction lines using List.reverseRecOn with
  | nil => simp [addAllToHistory, h0]
  | append_singleton l x ih =>
    have hne2 : ∀ a ∈ l, a ≠ [] := fun a ha => hne a (List.mem_append_left _ ha)
    have hx : x ≠ [] := hne x (by simp)
    rw [List.chain'_append] at hadj
    have ih2 := ih hne2 hadj.1
    have hlast : ¬ (l.drop (l.length - MAX_HISTORY)).getLast? = some x := by
      rw [List.getLast?_drop]
      split_ifs with hle
      · simp
      · intro hl
        exact hadj.2.2 _ (by rw [Option.mem_def]; exact hl) x (by simp) rfl
    rw [addAllToHistory_concat, commandHistory_addToHistory, ih2]
    simp only [hx, hlast, or_self, if_false, List.length_append, List.length_singleton,
      List.length_drop]
    unfold MAX_HISTORY at *
    split_ifs with hbig
    · have hlen : 100 ≤ l.length := by omega
      have hnn : l.drop (l.length - 100) ≠ [] := by
        intro h
        have := congrArg List.length h
        simp only [List.length_drop, List.length_nil] at this
        omega
      rw [List.tail_append_of_ne_nil hnn, List.tail_drop,
        List.drop_append_of_le_length (by omega)]
      congr 2
      omega
    · have hz : l.length + 1 - 100 = 0 := by omega
      have hz2 : l.length - 100 = 0 := by omega
      rw [hz, hz2]
      rfl

/-- C8. Feeding `n` non-empty lines, no two consecutive ones equal, from the empty history
leaves the last `min n 100` lines, oldest first; the size is at most 100; and after 105 such
lines exactly lines 6..105 remain. -/
theorem history_capacity (s : Shell) (h0 : s.commandHistory = []) (lines : List Str)
    (hne : ∀ l ∈ lines, l ≠ []) (hadj : List.Chain' (· ≠ ·) lines) :
    (addAllToHistory lines s).commandHistory =
      lines.drop (lines.length - min lines.length 100) ∧
    (addAllToHistory lines s).commandHistory.length = min lines.length 100 ∧
    (lines.length = 105 → (addAllToHistory lines s).commandHistory = lines.drop 5) := by
  have h := commandHistory_addAllToHistory s h0 lines hne hadj
  have e : lines.length - min lines.length 100 = lines.length - MAX_HISTORY := by
    unfold MAX_HISTORY; omega
  refine ⟨by rw [h, e], ?_, fun h105 => ?_⟩
  · rw [h, List.length_drop]; unfold MAX_HISTORY; omega
  · rw [h, h105]; rfl

theorem distinctCommands_ne_nil : ∀ l ∈ distinctCommands, l ≠ [] := by
  intro l hl
  simp only [distinctCommands, List.mem_map, List.mem_range] at hl
  obtain ⟨i, _, rfl⟩ := hl
  simp [List.replicate_succ]

theorem distinctCommands_nodup : distinctCommands.Nodup := by
  unfold distinctCommands
  refine (List.nodup_range 105).map_on ?_
  intro a _ b _ h
  have := congrArg List.length h
  simpa using this

theorem distinctCommands_chain : List.Chain' (· ≠ ·) distinctCommands :=
  (List.Pairwise.sublist (List.Sublist.refl _) distinctCommands_nodup).chain'

theorem history_capacity_witness :
    distinctCommands.length = 105 ∧ distinctCommands.Nodup ∧
    (addAllToHistory distinctCommands sampleShell).commandHistory = distinctCommands.drop 5 ∧
    (addAllToHistory distinctCommands sampleShell).commandHistory.length = 100 :=
  ⟨rfl, distinctCommands_nodup,
   (history_capacity sampleShell rfl distinctCommands distinctCommands_ne_nil
      distinctCommands_chain).2.2 rfl,
   (history_capacity sampleShell rfl distinctCommands distinctCommands_ne_nil
      distinctCommands_chain).2.1⟩

/-! ### C9: the window of `executeHistory` -/

theorem print_print (a b : Str) (s : Shell) : print b (print a s) = print (a ++ b) s := by
  simp [print, List.append_assoc]

theorem print_nil (s : Shell) : print [] s = s := by
  simp [print]

/-- The printing loop over the indices `lo, lo + 1, ..., lo + n - 1` prints the entries at
those positions, labelled `lo + 1, ...`. -/
theorem foldl_historyLine (h : List Str) (n lo : Nat) (hb : lo + n ≤ h.length) (st : Shell) :
    (List.range' lo n).foldl (fun st i => print (historyLine i (h.getD i [])) st) st =
      print (numbered (lo + 1) ((h.drop lo).take n)) st := by
  induction n generalizing lo st with
  | zero => simp [numbered, print_nil]
  | succ n ih =>
    have hlo : lo < h.length := by omega
    rw [List.range'_succ, List.foldl_cons, ih (lo + 1) (by omega), print_print,
      List.drop_eq_getElem_cons hlo, List.take_succ_cons, numbered]
    have hget : h.getD lo [] = h[lo] := by
      simp [List.getD_eq_getElem?_getD, List.getElem?_eq_getElem hlo]
    rw [hget]
    rfl

/-- A size that fits an `int` is unchanged by the cast. -/
theorem toInt32_of_lt (n : Nat) (h : n < 2 ^ 31) : toInt32 (n : Int) = n := by
  unfold toInt32
  norm_num at h ⊢
  omega

/-- The value of `start` in terms of the optional extra argument. -/
theorem historyStart_eq (args : List Str) (size : Nat) (hsize : size < 2 ^ 31) :
    historyStart args size =
      match args[1]? with
      | some a =>
        if 0 < atoi (c_str a) ∧ atoi (c_str a) < (size : Int) then size - (atoi (c_str a)).toNat
        else 0
      | none => 0 := by
  unfold historyStart
  split_ifs with h1
  · simp only [List.getElem?_eq_getElem h1, toInt32_of_lt size hsize, gt_iff_lt]
  · simp only [List.getElem?_eq_none (Nat.le_of_not_lt h1)]

/-- What `executeHistory` does, for each value of `start`. -/
theorem executeHistory_eq (args : List Str) (s : Shell) :
    executeHistory args s =
      print (numbered (historyStart args s.commandHistory.length + 1)
          (s.commandHistory.drop (historyStart args s.commandHistory.length)))
        (enter Handler.executeHistory args s) := by
  have hle : historyStart args s.commandHistory.length ≤ s.commandHistory.length := by
    unfold historyStart
    dsimp only
    split_ifs <;> omega
  unfold executeHistory forRange
  have := foldl_historyLine s.commandHistory
    (s.commandHistory.length - historyStart args s.commandHistory.length)
    (historyStart args s.commandHistory.length) (by omega) (enter Handler.executeHistory args s)
  rw [List.take_of_length_le (by rw [List.length_drop])] at this
  exact this

/-- C9. With `N = atoi` of the extra argument: if `0 < N < count`, `executeHistory` prints
exactly the last `N` entries in order, labelled `count - N + 1 .. count`; with no extra
argument, `N ≤ 0` (as for a non-numeric argument) or `N ≥ count` it prints all entries labelled
`1 .. count`.  Nothing else is printed.  (`count` fits an `int`.) -/
theorem executeHistory_window (args : List Str) (s : Shell)
    (hsize : s.commandHistory.length < 2 ^ 31) :
    (∀ a, args[1]? = some a → 0 < atoi (c_str a) →
      atoi (c_str a) < (s.commandHistory.length : Int) →
      executeHistory args s =
        print (numbered (s.commandHistory.length - (atoi (c_str a)).toNat + 1)
            (s.commandHistory.drop (s.commandHistory.length - (atoi (c_str a)).toNat)))
          (enter Handler.executeHistory args s)) ∧
    ((args[1]? = none ∨ ∃ a, args[1]? = some a ∧
        (atoi (c_str a) ≤ 0 ∨ (s.commandHistory.length : Int) ≤ atoi (c_str a))) →
      executeHistory args s =
        print (numbered 1 s.commandHistory) (enter Handler.executeHistory args s)) := by
  constructor
  · intro a ha hpos hlt
    rw [executeHistory_eq, historyStart_eq args _ hsize, ha]
    simp only [hpos, hlt, and_self, if_true]
  · intro h
    have h0 : historyStart args s.commandHistory.length = 0 := by
      rw [historyStart_eq args _ hsize]
      rcases h with h | ⟨a, ha, h⟩
      · rw [h]
      · rw [ha]
        have : ¬ (0 < atoi (c_str a) ∧ atoi (c_str a) < (s.commandHistory.length : Int)) := by
          omega
        simp only [this, if_false]
    rw [executeHistory_eq, h0]
    rfl

theorem executeHistory_window_witness :
    (executeHistory ["history".toList, "2".toList] fourShell).cout = "3 cd /tmp\n4 env\n".toList ∧
    (executeHistory ["history".toList] fourShell).cout =
      "1 ls\n2 pwd\n3 cd /tmp\n4 env\n".toList ∧
    (executeHistory ["history".toList, "4".toList] fourShell).cout =
      "1 ls\n2 pwd\n3 cd /tmp\n4 env\n".toList ∧
    (executeHistory ["history".toList, "-1".toList] fourShell).cout =
      "1 ls\n2 pwd\n3 cd /tmp\n4 env\n".toList ∧
    (executeHistory ["history".toList, "abc".toList] fourShell).cout =
      "1 ls\n2 pwd\n3 cd /tmp\n4 env\n".toList :=
  ⟨(congrArg Shell.cout ((executeHistory_window ["history".toList, "2".toList] fourShell
      (by decide)).1 "2".toList rfl (by decide) (by decide))).trans (by decide),
   (congrArg Shell.cout ((executeHistory_window ["history".toList] fourShell
      (by decide)).2 (Or.inl rfl))).trans (by decide),
   (congrArg Shell.cout ((executeHistory_window ["history".toList, "4".toList] fourShell
      (by decide)).2 (Or.inr ⟨"4".toList, rfl, Or.inr (by decide)⟩))).trans (by decide),
   (congrArg Shell.cout ((executeHistory_window ["history".toList, "-1".toList] fourShell
      (by decide)).2 (Or.inr ⟨"-1".toList, rfl, Or.inl (by decide)⟩))).trans (by decide),
   (congrArg Shell.cout ((executeHistory_window ["history".toList, "abc".toList] fourShell
      (by decide)).2 (Or.inr ⟨"abc".toList, rfl, Or.inl (by decide)⟩))).trans (by decide)⟩

/-! ### C10: the `history` command, end to end -/

theorem cout_addToHistory (command : Str) (s : Shell) :
    (addToHistory command s).cout = s.cout := by
  unfold addToHistory
  dsimp only
  split_ifs <;> rfl

/-- A line that tokenizes to `history a` is recorded first and then handled by
`executeHistory`. -/
theorem executeCommand_history_line (os : OS) (input a : Str)
    (hp : parseCommand input = ["history".toList, a]) (s : Shell) :
    executeCommand os input s =
      some (executeHistory ["history".toList, a] (addToHistory input s)) := by
  unfold executeCommand
  simp only [hp, List.cons_ne_nil, dite_false, List.head_cons, reduceCtorEq]
  rw [if_pos (by decide)]
  unfold executeBuiltin
  rw [if_neg (by decide), if_neg (by decide), if_neg (by decide), if_neg (by decide),
    if_neg (by decide), if_neg (by decide), if_neg (by decide), if_neg (by decide),
    if_pos rfl]

/-- The text `executeCommand` prints for a line `history a`, in terms of the history in
which the line has been recorded. -/
theorem cout_executeCommand_history (os : OS) (input a : Str)
    (hp : parseCommand input = ["history".toList, a]) (s : Shell) :
    ∃ s2, executeCommand os input s = some s2 ∧
      s2.cout = s.cout ++
        numbered (historyStart ["history".toList, a]
            (addToHistory input s).commandHistory.length + 1)
          ((addToHistory input s).commandHistory.drop
            (historyStart ["history".toList, a]
              (addToHistory input s).commandHistory.length)) := by
  refine ⟨_, executeCommand_history_line os input a hp s, ?_⟩
  rw [executeHistory_eq]
  show (enter _ _ (addToHistory input s)).cout ++ _ = _
  show (addToHistory input s).cout ++ _ = _
  rw [cout_addToHistory]

/-- With ten entries and a non-empty line, recording the line appends it unless it repeats
the last entry; nothing is evicted. -/
theorem commandHistory_addToHistory_ten (line : Str) (hl : line ≠ []) (s : Shell)
    (hten : s.commandHistory.length = 10) :
    (addToHistory line s).commandHistory =
      if s.commandHistory.getLast? = some line then s.commandHistory
      else s.commandHistory ++ [line] := by
  rw [commandHistory_addToHistory]
  simp only [hl, false_or, hten, MAX_HISTORY]
  split_ifs with h1 h2
  · rfl
  · omega
  · rfl

/-- C10 (as the code behaves). `executeCommand` records the entered line in the history
before it dispatches.  For a state whose history holds 10 entries: `history 3` prints entries
9 and 10 and then the line itself, labelled 9, 10, 11; only if the 10th entry already is
`history 3` (nothing is recorded then) it prints entries 8, 9, 10 labelled 8, 9, 10.
`history 0` and `history 999` print the 10 entries and then the line itself, labelled 1..11,
or, if the 10th entry already is that line, the 10 entries labelled 1..10. -/
theorem executeCommand_history_ten (os : OS) (s : Shell)
    (hten : s.commandHistory.length = 10) :
    (s.commandHistory.getLast? = some "history 3".toList →
      ∃ s2, executeCommand os "history 3".toList s = some s2 ∧
        s2.cout = s.cout ++ numbered 8 (s.commandHistory.drop 7)) ∧
    (s.commandHistory.getLast? ≠ some "history 3".toList →
      ∃ s2, executeCommand os "history 3".toList s = some s2 ∧
        s2.cout = s.cout ++ numbered 9 (s.commandHistory.drop 8 ++ ["history 3".toList])) ∧
    (∀ line a, (line = "history 0".toList ∧ a = "0".toList) ∨
        (line = "history 999".toList ∧ a = "999".toList) →
      (s.commandHistory.getLast? = some line →
        ∃ s2, executeCommand os line s = some s2 ∧
          s2.cout = s.cout ++ numbered 1 s.commandHistory) ∧
      (s.commandHistory.getLast? ≠ some line →
        ∃ s2, executeCommand os line s = some s2 ∧
          s2.cout = s.cout ++ numbered 1 (s.commandHistory ++ [line]))) := by
  refine ⟨fun hlast => ?_, fun hlast => ?_, fun line a hla => ⟨fun hlast => ?_, fun hlast => ?_⟩⟩
  · obtain ⟨s2, h1, h2⟩ := cout_executeCommand_history os "history 3".toList "3".toList
      (by decide) s
    refine ⟨s2, h1, ?_⟩
    rw [h2, commandHistory_addToHistory_ten _ (by decide) s hten, if_pos hlast, hten]
    have e : historyStart ["history".toList, "3".toList] 10 = 7 := by decide
    rw [e]
  · obtain ⟨s2, h1, h2⟩ := cout_executeCommand_history os "history 3".toList "3".toList
      (by decide) s
    refine ⟨s2, h1, ?_⟩
    rw [h2, commandHistory_addToHistory_ten _ (by decide) s hten, if_neg hlast,
      List.length_append, hten]
    have e : historyStart ["history".toList, "3".toList] (10 + [("history 3".toList)].length)
        = 8 := by decide
    rw [e, List.drop_append_of_le_length (by omega)]
  · have hp : parseCommand line = ["history".toList, a] := by
      rcases hla with ⟨h1, h2⟩ | ⟨h1, h2⟩ <;> subst h1 <;> subst h2 <;> decide
    have hl : line ≠ [] := by
      rcases hla with ⟨h1, _⟩ | ⟨h1, _⟩ <;> subst h1 <;> decide
    obtain ⟨s2, h1, h2⟩ := cout_executeCommand_history os line a hp s
    refine ⟨s2, h1, ?_⟩
    rw [h2, commandHistory_addToHistory_ten _ hl s hten, if_pos hlast, hten]
    have e : historyStart ["history".toList, a] 10 = 0 := by
      rcases hla with ⟨_, h2⟩ | ⟨_, h2⟩ <;> subst h2 <;> decide
    rw [e]
    rfl
  · have hp : parseCommand line = ["history".toList, a] := by
      rcases hla with ⟨h1, h2⟩ | ⟨h1, h2⟩ <;> subst h1 <;> subst h2 <;> decide
    have hl : line ≠ [] := by
      rcases hla with ⟨h1, _⟩ | ⟨h1, _⟩ <;> subst h1 <;> decide
    obtain ⟨s2, h1, h2⟩ := cout_executeCommand_history os line a hp s
    refine ⟨s2, h1, ?_⟩
    rw [h2, commandHistory_addToHistory_ten _ hl s hten, if_neg hlast,
      List.length_append, hten, List.length_singleton]
    have e : historyStart ["history".toList, a] (10 + 1) = 0 := by
      rcases hla with ⟨_, h2⟩ | ⟨_, h2⟩ <;> subst h2 <;> decide
    rw [e]
    rfl

theorem executeCommand_history_ten_witness :
    (∃ s2, executeCommand sampleOS "history 3".toList tenShell = some s2 ∧
      s2.cout = "9 c9\n10 c10\n11 history 3\n".toList) ∧
    (∃ s2, executeCommand sampleOS "history 3".toList tenShellRepeat = some s2 ∧
      s2.cout = "8 c8\n9 c9\n10 history 3\n".toList) :=
  ⟨(executeCommand_history_ten sampleOS tenShell rfl).2.1 (by decide),
   (executeCommand_history_ten sampleOS tenShellRepeat rfl).1 (by decide)⟩

/-- C10 as stated fails: with the ten entries `c1`, ..., `c10` in the history, the line
`history 3` prints `9 c9`, `10 c10`, `11 history 3`, not entries 8, 9, 10; and `history 0`
prints eleven lines, not the ten entries labelled 1..10. -/
theorem executeCommand_history_ten_counterexample :
    tenShell.commandHistory.length = 10 ∧
    (executeCommand sampleOS "history 3".toList tenShell).map Shell.cout =
      some "9 c9\n10 c10\n11 history 3\n".toList ∧
    (executeCommand sampleOS "history 3".toList tenShell).map Shell.cout ≠
      some (tenShell.cout ++ numbered 8 (tenShell.commandHistory.drop 7)) ∧
    (executeCommand sampleOS "history 0".toList tenShell).map Shell.cout ≠
      some (tenShell.cout ++ numbered 1 tenShell.commandHistory) := by
  decide

/-! ### C18: end of line -/

/-- The final emission looks at the collected tokens and the current token only. -/
theorem parseFinish_congr (st1 st2 : ParseState) (ht : st1.tokens = st2.tokens)
    (hc : st1.current_token = st2.current_token) : parseFinish st1 = parseFinish st2 := by
  unfold parseFinish
  rw [ht, hc]

/-- C18. The tokenizer is a total function and returns a token sequence for every line.  A
backslash at the end of a line whose scan ends without pending escape is dropped; a line
whose scan ends inside an open quote, without pending escape, tokenizes as if the quote were
closed at the end of the line; so `echo "a b` gives `echo`, `a b`. -/
theorem parseCommand_end_of_line (s : Str) :
    ((parseScan parseInit s).escape_next = false →
      parseCommand (s ++ [backslash]) = parseCommand s) ∧
    ((parseScan parseInit s).in_quotes = true → (parseScan parseInit s).escape_next = false →
      parseCommand s = parseCommand (s ++ [dquote])) ∧
    parseCommand ("echo ".toList ++ [dquote] ++ "a b".toList) =
      ["echo".toList, "a b".toList] := by
  refine ⟨fun he => ?_, fun hq he => ?_, by decide⟩
  · unfold parseCommand
    rw [parseScan_append, parseScan_cons, parseScan_nil]
    apply parseFinish_congr <;> simp [parseStep, he]
  · unfold parseCommand
    rw [parseScan_append, parseScan_cons, parseScan_nil]
    have hne : ¬ (dquote = backslash) := by decide
    apply parseFinish_congr <;> simp [parseStep, he, hq, hne]

theorem parseCommand_end_of_line_witness :
    parseCommand ("echo a".toList ++ [backslash]) = parseCommand "echo a".toList ∧
    parseCommand ("echo ".toList ++ [squote] ++ "a b".toList) =
      parseCommand ("echo ".toList ++ [squote] ++ "a b".toList ++ [dquote]) :=
  ⟨(parseCommand_end_of_line "echo a".toList).1 (by decide),
   (parseCommand_end_of_line ("echo ".toList ++ [squote] ++ "a b".toList)).2.1
      (by decide) (by decide)⟩

/-! ### C19: composition across unquoted white space -/

theorem parseStep_addTokens (pre : List Str) (st : ParseState) (c : Char) :
    parseStep (addTokens pre st) c = addTokens pre (parseStep st c) := by
  unfold parseStep addTokens
  split_ifs <;> simp

theorem parseScan_addTokens (pre : List Str) (st : ParseState) (input : Str) :
    parseScan (addTokens pre st) input = addTokens pre (parseScan st input) := by
  induction input generalizing st with
  | nil => rfl
  | cons c cs ih => rw [parseScan_cons, parseScan_cons, parseStep_addTokens, ih]

theorem parseFinish_addTokens (pre : List Str) (st : ParseState) :
    parseFinish (addTokens pre st) = pre ++ parseFinish st := by
  unfold parseFinish addTokens
  split_ifs <;> simp

/-- An unquoted, unescaped whitespace character ends the current token: the state after it
is the initial state with the tokens emitted so far. -/
theorem parseStep_space (st : ParseState) (w : Char) (hq : st.in_quotes = false)
    (he : st.escape_next = false) (hw : isspace w = true) :
    parseStep st w = addTokens (parseFinish st) parseInit := by
  have hp := isspace_plain w hw
  obtain ⟨toks, cur, q, e⟩ := st
  simp only at hq he
  subst hq he
  unfold parseStep parseFinish addTokens parseInit
  by_cases hcur : cur = [] <;> simp [hcur, hp.1, hp.2.1, hp.2.2, hw]

/-- Across an unquoted, unescaped whitespace character the tokenization is the concatenation
of the tokenizations of the two sides. -/
theorem parseCommand_append_space (a b : Str) (w : Char)
    (hq : (parseScan parseInit a).in_quotes = false)
    (he : (parseScan parseInit a).escape_next = false) (hw : isspace w = true) :
    parseCommand (a ++ [w] ++ b) = parseCommand a ++ parseCommand b := by
  unfold parseCommand
  rw [parseScan_append, parseScan_append, parseScan_cons, parseScan_nil,
    parseStep_space _ w hq he hw, parseScan_addTokens, parseFinish_addTokens]

/-- Outside quotes and escapes a plain word is appended to the current token. -/
theorem parseScan_word (t : Str)
    (h : ∀ c ∈ t, isspace c = false ∧ c ≠ backslash ∧ c ≠ dquote ∧ c ≠ squote)
    (toks : List Str) (cur : Str) :
    parseScan ⟨toks, cur, false, false⟩ t = ⟨toks, cur ++ t, false, false⟩ := by
  induction t generalizing cur with
  | nil => simp [parseScan_nil]
  | cons x xs ih =>
    have hx := h x (List.mem_cons_self _ _)
    have : parseStep ⟨toks, cur, false, false⟩ x = ⟨toks, cur ++ [x], false, false⟩ := by
      simp [parseStep, hx.1, hx.2.1, hx.2.2.1, hx.2.2.2]
    rw [parseScan_cons, this, ih (fun d hd => h d (List.mem_cons_of_mem _ hd))]
    simp

theorem parseCommand_word (t : Str) (h : PlainWord t) : parseCommand t = [t] := by
  unfold parseCommand parseInit
  rw [parseScan_word t h.2]
  simp [parseFinish, h.1]

theorem intercalate_cons_cons (sep t u : Str) (rest : List Str) :
    sep.intercalate (t :: u :: rest) = t ++ sep ++ sep.intercalate (u :: rest) := by
  simp [List.intercalate, List.intersperse]

/-- Plain words joined by single spaces tokenize to the words. -/
theorem parseCommand_intercalate (ts : List Str) (h : ∀ t ∈ ts, PlainWord t) :
    parseCommand (" ".toList.intercalate ts) = ts := by
  induction ts with
  | nil => decide
  | cons t rest ih =>
    have ht := h t (List.mem_cons_self _ _)
    cases rest with
    | nil => simpa [List.intercalate] using parseCommand_word t ht
    | cons u rest =>
      have hw : isspace ' ' = true := by decide
      have hs : " ".toList = [' '] := rfl
      rw [intercalate_cons_cons, hs, parseCommand_append_space t _ ' '
        (by unfold parseInit; rw [parseScan_word t ht.2])
        (by unfold parseInit; rw [parseScan_word t ht.2]) hw,
        parseCommand_word t ht, ← hs, ih (fun x hx => h x (List.mem_cons_of_mem _ hx))]
      rfl

/-- Scanning characters other than the backslash and the quotes leaves both flags clear. -/
theorem parseScan_plain_flags (line : Str)
    (h : ∀ c ∈ line, c ≠ backslash ∧ c ≠ dquote ∧ c ≠ squote) (st : ParseState)
    (hq : st.in_quotes = false) (he : st.escape_next = false) :
    (parseScan st line).in_quotes = false ∧ (parseScan st line).escape_next = false := by
  induction line generalizing st with
  | nil => exact ⟨hq, he⟩
  | cons c cs ih =>
    have hc := h c (List.mem_cons_self _ _)
    rw [parseScan_cons]
    apply ih (fun d hd => h d (List.mem_cons_of_mem _ hd))
    · unfold parseStep
      simp only [he, hc.1, hc.2.1, hc.2.2, or_self, if_false, Bool.false_eq_true]
      split_ifs <;> exact hq
    · unfold parseStep
      simp only [he, hc.1, hc.2.1, hc.2.2, or_self, if_false, Bool.false_eq_true]
      split_ifs <;> first | exact he | rfl

theorem intercalate_cons (sep t : Str) (rest : List Str) :
    sep.intercalate (t :: rest) = t ++ (rest.map (fun u => sep ++ u)).flatten := by
  induction rest generalizing t with
  | nil => simp [List.intercalate]
  | cons u rest ih => rw [intercalate_cons_cons, ih u]; simp

/-- The loop of `executeEcho` from index `lo ≥ 2` on: each argument preceded by a space. -/
theorem foldl_echo (args : List Str) (k lo : Nat) (hlo : 2 ≤ lo) (hb : lo + k ≤ args.length)
    (st : Shell) :
    (List.range' lo k).foldl
        (fun st i => print (args.getD i []) (if i > 1 then print " ".toList st else st)) st =
      print ((((args.drop lo).take k).map (fun u => " ".toList ++ u)).flatten) st := by
  induction k generalizing lo st with
  | zero => simp [print_nil]
  | succ k ih =>
    have hlt : lo < args.length := by omega
    have hgt : lo > 1 := by omega
    rw [List.range'_succ, List.foldl_cons, ih (lo + 1) (by omega) (by omega), if_pos hgt,
      print_print, print_print, List.drop_eq_getElem_cons hlt, List.take_succ_cons]
    have hget : args.getD lo [] = args[lo] := by
      simp [List.getD_eq_getElem?_getD, List.getElem?_eq_getElem hlt]
    rw [hget]
    simp

/-- What `executeEcho` prints: the arguments after the command name joined by single spaces,
and a newline. -/
theorem executeEcho_eq (args : List Str) (s : Shell) :
    executeEcho args s =
      print (" ".toList.intercalate (args.drop 1) ++ "\n".toList)
        (enter Handler.executeEcho args s) := by
  unfold executeEcho forRange
  dsimp only
  rcases args with _ | ⟨a0, _ | ⟨a1, rest⟩⟩
  · simp [List.intercalate, print_print]
  · simp [List.intercalate, print_print]
  · have h := foldl_echo (a0 :: a1 :: rest) rest.length 2 (le_refl _)
      (by simp only [List.length_cons]; omega)
    have e : (a0 :: a1 :: rest).length - 1 = rest.length + 1 := by
      simp only [List.length_cons]; omega
    rw [e, List.range'_succ, List.foldl_cons, h]
    simp [print_print, intercalate_cons]

/-- A line of plain words joined by single spaces contains no backslash and no quote. -/
theorem intercalate_plain (ts : List Str) (h : ∀ t ∈ ts, PlainWord t) :
    ∀ c ∈ " ".toList.intercalate ts, c ≠ backslash ∧ c ≠ dquote ∧ c ≠ squote := by
  induction ts with
  | nil => intro c hc; simp [List.intercalate] at hc
  | cons t rest ih =>
    intro c hc
    cases rest with
    | nil =>
      simp only [List.intercalate, List.intersperse, List.flatten, List.append_nil] at hc
      exact (h t (List.mem_cons_self _ _)).2 c hc |>.2
    | cons u rest =>
      rw [intercalate_cons_cons] at hc
      simp only [List.mem_append] at hc
      rcases hc with (hc | hc) | hc
      · exact (h t (List.mem_cons_self _ _)).2 c hc |>.2
      · have : c = ' ' := by simpa using hc
        subst this
        decide
      · exact ih (fun x hx => h x (List.mem_cons_of_mem _ hx)) c hc

/-- C19. Tokenization is compositional across unquoted white space: if the scan of `a` ends
outside quotes and without pending escape and `w` is a whitespace character, the tokens of
`a ++ [w] ++ b` are those of `a` followed by those of `b`.  Consequently non-empty words free
of white space, quotes and backslashes, joined by single spaces, tokenize to the words; and
the line `executeEcho` prints for such words tokenizes to the words. -/
theorem parseCommand_compositional :
    (∀ (a b : Str) (w : Char), (parseScan parseInit a).in_quotes = false →
      (parseScan parseInit a).escape_next = false → isspace w = true →
      parseCommand (a ++ [w] ++ b) = parseCommand a ++ parseCommand b) ∧
    (∀ ts : List Str, (∀ t ∈ ts, PlainWord t) →
      parseCommand (" ".toList.intercalate ts) = ts) ∧
    (∀ (command : Str) (ts : List Str) (s : Shell), (∀ t ∈ ts, PlainWord t) →
      (executeEcho (command :: ts) s).cout =
        s.cout ++ (" ".toList.intercalate ts ++ "\n".toList) ∧
      parseCommand (" ".toList.intercalate ts ++ "\n".toList) = ts) := by
  refine ⟨parseCommand_append_space, parseCommand_intercalate, fun command ts s h => ⟨?_, ?_⟩⟩
  · rw [executeEcho_eq]
    rfl
  · have hf := parseScan_plain_flags _ (intercalate_plain ts h) parseInit rfl rfl
    have hn : isspace '\n' = true := by decide
    have := parseCommand_append_space (" ".toList.intercalate ts) [] '\n' hf.1 hf.2 hn
    rw [List.append_nil] at this
    have e : "\n".toList = ['\n'] := rfl
    rw [e, this, parseCommand_intercalate ts h]
    simp [parseCommand, parseInit, parseScan_nil, parseFinish]

theorem parseCommand_compositional_witness :
    parseCommand ("echo ".toList ++ [dquote] ++ "a b".toList ++ [dquote] ++ ['\t'] ++ "c d".toList) =
      parseCommand ("echo ".toList ++ [dquote] ++ "a b".toList ++ [dquote]) ++ parseCommand "c d".toList ∧
    parseCommand (" ".toList.intercalate ["ls".toList, "-la".toList, "/tmp".toList]) =
      ["ls".toList, "-la".toList, "/tmp".toList] ∧
    (executeEcho ["echo".toList, "hello".toList, "world".toList] sampleShell).cout =
      "hello world\n".toList :=
  ⟨parseCommand_compositional.1 ("echo ".toList ++ [dquote] ++ "a b".toList ++ [dquote]) "c d".toList '\t'
      (by decide) (by decide) (by decide),
   parseCommand_compositional.2.1 ["ls".toList, "-la".toList, "/tmp".toList] (by decide),
   (parseCommand_compositional.2.2 "echo".toList ["hello".toList, "world".toList] sampleShell
      (by decide)).1⟩

/-! ### C17: the directory name in the prompt -/

/-- A list in which `c` occurs splits at the first occurrence, which is at `indexOf`. -/
theorem split_at_first (c : Char) (r : Str) (h : c ∈ r) :
    ∃ post, r = r.takeWhile (fun x => x ≠ c) ++ c :: post ∧
      r.indexOf c = (r.takeWhile (fun x => x ≠ c)).length := by
  induction r with
  | nil => simp at h
  | cons x xs ih =>
    by_cases hx : x = c
    · subst hx
      exact ⟨xs, by simp, by simp⟩
    · have hmem : c ∈ xs := by
        rcases List.mem_cons.mp h with h1 | h1
        · exact absurd h1.symm hx
        · exact h1
      obtain ⟨post, h1, h2⟩ := ih hmem
      refine ⟨post, ?_, ?_⟩
      · simp only [List.takeWhile_cons, hx, ne_eq, not_false_eq_true, decide_True, if_true,
          List.cons_append]
        rw [← h1]
      · simp only [List.takeWhile_cons, hx, ne_eq, not_false_eq_true, decide_True, if_true,
          List.length_cons]
        rw [List.indexOf_cons_ne _ hx, h2]

/-- A string in which `/` occurs splits at its last `/`, whose position `find_last_of`
returns; what follows is the last segment. -/
theorem split_at_last (d : Str) (h : '/' ∈ d) :
    ∃ pre, d = pre ++ '/' :: lastSegment d ∧ find_last_of d '/' = some pre.length ∧
      '/' ∉ lastSegment d := by
  have hr : '/' ∈ d.reverse := List.mem_reverse.mpr h
  obtain ⟨post, h1, h2⟩ := split_at_first '/' d.reverse hr
  have hd : d = post.reverse ++ '/' :: lastSegment d := by
    have := congrArg List.reverse h1
    rw [List.reverse_reverse] at this
    refine this.trans ?_
    rw [List.reverse_append, List.reverse_cons, List.append_assoc]
    rfl
  refine ⟨post.reverse, hd, ?_, ?_⟩
  · unfold find_last_of
    rw [if_pos h, h2]
    have hl := congrArg List.length h1
    simp only [List.length_reverse, List.length_append, List.length_cons] at hl
    simp only [List.length_reverse]
    congr 1
    omega
  · unfold lastSegment
    intro hm
    have hm2 := List.mem_reverse.mp hm
    have := List.mem_takeWhile_imp hm2
    simp at this

/-- C17. If the cached directory `d` has a `/` at a position greater than 0, `getShortPath`
is the substring after the last `/` of `d`, which contains no `/`; if `d` has no `/` or its
only `/` is at position 0, it is `d` itself.  The prompt is `[shell:`, that name, `]$ `. -/
theorem getShortPath_spec (s : Shell) :
    ('/' ∈ s.currentDirectory.drop 1 →
      getShortPath s = lastSegment s.currentDirectory ∧ '/' ∉ getShortPath s ∧
      ∃ pre, pre ≠ [] ∧ s.currentDirectory = pre ++ '/' :: getShortPath s) ∧
    ('/' ∉ s.currentDirectory.drop 1 → getShortPath s = s.currentDirectory) ∧
    (printPrompt s).cout = s.cout ++ ("[shell:".toList ++ getShortPath s ++ "]$ ".toList) := by
  refine ⟨fun h => ?_, fun h => ?_, rfl⟩
  · have hmem : '/' ∈ s.currentDirectory := List.mem_of_mem_drop h
    obtain ⟨pre, h1, h2, h3⟩ := split_at_last s.currentDirectory hmem
    have hpre : pre ≠ [] := by
      intro hp
      rw [hp, List.nil_append] at h1
      rw [h1] at h
      simp only [List.drop_succ_cons, List.drop_zero] at h
      exact h3 h
    have hlen : pre.length ≠ 0 := fun h0 => hpre (List.length_eq_zero.mp h0)
    have hg : getShortPath s = lastSegment s.currentDirectory := by
      unfold getShortPath
      rw [h2]
      simp only [hlen, if_false]
      conv_lhs => rw [h1]
      rw [List.drop_append]
      rfl
    rw [hg]
    exact ⟨rfl, h3, pre, hpre, h1⟩
  · unfold getShortPath
    by_cases hmem : '/' ∈ s.currentDirectory
    · obtain ⟨pre, h1, h2, h3⟩ := split_at_last s.currentDirectory hmem
      rw [h2]
      have hpre : pre = [] := by
        by_contra hp
        apply h
        rw [h1]
        obtain ⟨x, xs, rfl⟩ := List.exists_cons_of_ne_nil hp
        simp
      simp [hpre]
    · have : find_last_of s.currentDirectory '/' = none := by
        unfold find_last_of
        rw [if_neg hmem]
      rw [this]

theorem getShortPath_spec_witness :
    getShortPath { sampleShell with currentDirectory := "/home/user".toList } = "user".toList ∧
    getShortPath { sampleShell with currentDirectory := "/".toList } = "/".toList ∧
    getShortPath { sampleShell with currentDirectory := "/tmp".toList } = "/tmp".toList ∧
    getShortPath { sampleShell with currentDirectory := "work".toList } = "work".toList ∧
    (printPrompt sampleShell).cout = "[shell:user]$ ".toList :=
  ⟨((getShortPath_spec { sampleShell with currentDirectory := "/home/user".toList }).1
      (by decide)).1.trans (by decide),
   (getShortPath_spec { sampleShell with currentDirectory := "/".toList }).2.1 (by decide),
   (getShortPath_spec { sampleShell with currentDirectory := "/tmp".toList }).2.1 (by decide),
   (getShortPath_spec { sampleShell with currentDirectory := "work".toList }).2.1 (by decide),
   (getShortPath_spec sampleShell).2.2.trans (by decide)⟩

/-! ### C13: usage errors of `export` -/

theorem find_eq_none_iff (a : Str) (c : Char) : find a c = none ↔ c ∉ a := by
  unfold find
  split_ifs with h <;> simp [h]

/-- With a missing extra argument or one without `=`, `executeExport` only writes the usage
message. -/
theorem executeExport_malformed (os : OS) (args : List Str) (s : Shell)
    (h : ExportMalformed args) :
    executeExport os args s = eprint exportUsage (enter Handler.executeExport args s) := by
  unfold executeExport
  rcases h with h | ⟨a, ha, hna⟩
  · have hlen : args.length < 2 := by
      have := List.getElem?_eq_none_iff.mp h
      omega
    rw [dif_pos hlen]
    rfl
  · have hlen : ¬ args.length < 2 := by
      intro hl
      rw [List.getElem?_eq_none (by omega)] at ha
      exact Option.noConfusion ha
    rw [dif_neg hlen]
    have hget : args[1] = a := by
      have := List.getElem?_eq_getElem (l := args) (n := 1) (by omega)
      rw [this] at ha
      exact Option.some.inj ha
    dsimp only
    rw [hget, (find_eq_none_iff a '=').mpr hna]
    rfl

/-- With an extra argument that contains `=`, `executeExport` either changes the environment
only, or reports the failure of `setenv` through `perror`. -/
theorem executeExport_wellformed (os : OS) (args : List Str) (s : Shell) (a : Str)
    (ha : args[1]? = some a) (heq : '=' ∈ a) :
    (∃ env, executeExport os args s =
      { enter Handler.executeExport args s with environ := env }) ∨
    executeExport os args s = perror os "export".toList (enter Handler.executeExport args s) := by
  unfold executeExport
  have hlen : ¬ args.length < 2 := by
    intro hl
    rw [List.getElem?_eq_none (by omega)] at ha
    exact Option.noConfusion ha
  rw [dif_neg hlen]
  have hget : args[1] = a := by
    have := List.getElem?_eq_getElem (l := args) (n := 1) (by omega)
    rw [this] at ha
    exact Option.some.inj ha
  dsimp only
  rw [hget]
  have hf : find a '=' = some (a.indexOf '=') := by
    unfold find
    rw [if_pos heq]
  rw [hf]
  dsimp only
  cases setenv os (c_str (List.take (List.indexOf '=' a) a))
      (c_str (List.drop (List.indexOf '=' a + 1) a))
      (enter Handler.executeExport args s).environ with
  | none => exact Or.inr rfl
  | some env => exact Or.inl ⟨env, rfl⟩

/-- C13. When the extra argument is missing or contains no `=`, `executeExport` writes the
usage message to the error stream and changes nothing else: environment, history, cached
directory, running flag, standard output and exit state are as before.  In every other case
the error stream is unchanged or receives the `perror` text, so (the system error text not
being the usage text) the usage message is emitted in those two cases only. -/
theorem executeExport_usage (os : OS) (args : List Str) (s : Shell) :
    (ExportMalformed args →
      executeExport os args s = eprint exportUsage (enter Handler.executeExport args s) ∧
      (executeExport os args s).cerr = s.cerr ++ exportUsage ∧
      (executeExport os args s).environ = s.environ ∧
      (executeExport os args s).commandHistory = s.commandHistory ∧
      (executeExport os args s).currentDirectory = s.currentDirectory ∧
      (executeExport os args s).running = s.running ∧
      (executeExport os args s).cout = s.cout ∧
      (executeExport os args s).exitCode = s.exitCode) ∧
    (¬ ExportMalformed args →
      (executeExport os args s).cerr = s.cerr ∨
      (executeExport os args s).cerr =
        s.cerr ++ ("export: ".toList ++ os.strerror "export".toList ++ "\n".toList)) ∧
    (os.strerror "export".toList ≠ "usage: export VAR=value".toList →
      ((executeExport os args s).cerr = s.cerr ++ exportUsage ↔ ExportMalformed args)) := by
  have hA : ExportMalformed args →
      executeExport os args s = eprint exportUsage (enter Handler.executeExport args s) :=
    executeExport_malformed os args s
  have hB : ¬ ExportMalformed args →
      (executeExport os args s).cerr = s.cerr ∨
      (executeExport os args s).cerr =
        s.cerr ++ ("export: ".toList ++ os.strerror "export".toList ++ "\n".toList) := by
    intro hn
    unfold ExportMalformed at hn
    rw [not_or] at hn
    obtain ⟨a, ha⟩ := Option.ne_none_iff_exists'.mp hn.1
    have heq : '=' ∈ a := by
      by_contra hc
      exact hn.2 ⟨a, ha, hc⟩
    rcases executeExport_wellformed os args s a ha heq with ⟨env, h⟩ | h
    · exact Or.inl (by rw [h]; rfl)
    · refine Or.inr ?_
      rw [h]
      simp [perror, eprint, enter]
  refine ⟨fun h => ?_, hB, fun hs => ⟨fun hc => ?_, fun h => by rw [hA h]; rfl⟩⟩
  · rw [hA h]
    exact ⟨rfl, rfl, rfl, rfl, rfl, rfl, rfl, rfl⟩
  · by_contra hn
    rcases hB hn with h | h
    · rw [h] at hc
      have := congrArg List.length hc
      simp [exportUsage] at this
    · rw [h] at hc
      have h2 := List.append_cancel_left hc
      apply hs
      have h3 : "export: ".toList ++ os.strerror "export".toList ++ "\n".toList =
          "export: ".toList ++ ("usage: export VAR=value".toList ++ "\n".toList) := by
        rw [h2]; rfl
      rw [List.append_assoc] at h3
      exact List.append_cancel_right (List.append_cancel_left h3)

theorem executeExport_usage_witness :
    (executeExport sampleOS ["export".toList, "BADFORMAT".toList] sampleShell).cerr =
      "export: usage: export VAR=value\n".toList ∧
    (executeExport sampleOS ["export".toList, "BADFORMAT".toList] sampleShell).environ =
      sampleShell.environ ∧
    (executeExport sampleOS ["export".toList] sampleShell).cerr =
      "export: usage: export VAR=value\n".toList ∧
    ((executeExport sampleOS ["export".toList, "=foo".toList] sampleShell).cerr =
        sampleShell.cerr ++ exportUsage ↔
      ExportMalformed ["export".toList, "=foo".toList]) :=
  ⟨((executeExport_usage sampleOS ["export".toList, "BADFORMAT".toList] sampleShell).1
      (Or.inr ⟨"BADFORMAT".toList, rfl, by decide⟩)).2.1,
   ((executeExport_usage sampleOS ["export".toList, "BADFORMAT".toList] sampleShell).1
      (Or.inr ⟨"BADFORMAT".toList, rfl, by decide⟩)).2.2.1,
   ((executeExport_usage sampleOS ["export".toList] sampleShell).1 (Or.inl rfl)).2.1,
   (executeExport_usage sampleOS ["export".toList, "=foo".toList] sampleShell).2.2
      (by decide)⟩

/-! ### C12: `export` splits at the first `=` -/

/-- The split `executeExport` computes with `find`, `substr(0, pos)` and `substr(pos + 1)` is
the split at the first `=`. -/
theorem split_at_equals (a : Str) (h : '=' ∈ a) :
    find a '=' = some (a.indexOf '=') ∧
    a.take (a.indexOf '=') = nameOf a ∧ a.drop (a.indexOf '=' + 1) = valueOf a ∧
    '=' ∉ nameOf a ∧ nameOf a ++ ['='] ++ valueOf a = a := by
  obtain ⟨post, h1, h2⟩ := split_at_first '=' a h
  have hn : nameOf a = a.takeWhile (fun x => x ≠ '=') := rfl
  have hv : valueOf a = post := by
    unfold valueOf
    conv_lhs => rw [h1]
    have hall : ∀ x ∈ a.takeWhile (fun x => x ≠ '='), (fun x => decide (x ≠ '=')) x = true := by
      intro x hx
      have := List.mem_takeWhile_imp hx
      simpa using this
    rw [List.dropWhile_append_of_pos hall]
    simp
  have ht : a.take (a.indexOf '=') = nameOf a := by
    rw [h2, hn]
    conv_lhs => arg 2; rw [h1]
    rw [List.take_left']
    rfl
  have hd : a.drop (a.indexOf '=' + 1) = valueOf a := by
    rw [h2, hv]
    conv_lhs => arg 2; rw [h1]
    rw [List.drop_append]
    rfl
  refine ⟨by unfold find; rw [if_pos h], ht, hd, ?_, ?_⟩
  · intro hm
    have := List.mem_takeWhile_imp hm
    simp at this
  · rw [hv, hn, List.append_assoc]
    exact h1.symm

/-- A string without NUL is passed to the C library unchanged. -/
theorem c_str_of_not_mem (x : Str) (h : nul ∉ x) : c_str x = x := by
  unfold c_str
  rw [List.takeWhile_eq_self_iff]
  intro c hc
  have : c ≠ nul := fun e => h (e ▸ hc)
  simpa [nul] using this

theorem bindsName_iff (name e : Str) :
    bindsName name e = true ↔ ∃ r, e = name ++ '=' :: r := by
  unfold bindsName
  rw [List.isPrefixOf_iff_prefix]
  constructor
  · rintro ⟨t, ht⟩
    exact ⟨t, by rw [← ht]; simp⟩
  · rintro ⟨r, rfl⟩
    exact ⟨r, by simp⟩

theorem bindsName_entry (name value : Str) :
    bindsName name (name ++ ['='] ++ value) = true :=
  (bindsName_iff _ _).mpr ⟨value, by simp⟩

/-- An entry binds at most one name without `=`: the name is what precedes its first `=`. -/
theorem bindsName_unique (o n e : Str) (ho : '=' ∉ o) (hn : '=' ∉ n)
    (h1 : bindsName o e = true) (h2 : bindsName n e = true) : o = n := by
  obtain ⟨r1, rfl⟩ := (bindsName_iff _ _).mp h1
  obtain ⟨r2, e2⟩ := (bindsName_iff _ _).mp h2
  have key : ∀ (x r : Str), '=' ∉ x →
      (x ++ '=' :: r).takeWhile (fun c => c ≠ '=') = x := by
    intro x r hx
    induction x with
    | nil => simp
    | cons c cs ih =>
      have hc : c ≠ '=' := fun e => hx (e ▸ List.mem_cons_self _ _)
      have hcs : '=' ∉ cs := fun hm => hx (List.mem_cons_of_mem _ hm)
      have := ih hcs
      simpa [List.takeWhile_cons, hc] using this
  have := congrArg (List.takeWhile (fun c => c ≠ '=')) e2
  rw [key o r1 ho, key n r2 hn] at this
  exact this

/-- If some element satisfies `p` and every element that does is `x`, then `find?` finds `x`. -/
theorem find?_of_unique {α : Type} (p : α → Bool) (l : List α) (x : α)
    (hex : ∃ e ∈ l, p e = true) (hall : ∀ e ∈ l, p e = true → e = x) :
    l.find? p = some x := by
  induction l with
  | nil => obtain ⟨e, he, _⟩ := hex; simp at he
  | cons a l ih =>
    by_cases ha : p a = true
    · rw [List.find?_cons_of_pos _ ha, hall a (List.mem_cons_self _ _) ha]
    · rw [List.find?_cons_of_neg _ ha]
      apply ih
      · obtain ⟨e, he, hp⟩ := hex
        rcases List.mem_cons.mp he with rfl | he
        · exact absurd hp ha
        · exact ⟨e, he, hp⟩
      · exact fun e he hp => hall e (List.mem_cons_of_mem _ he) hp

/-- If some entry satisfies `p`, as `entry` does, then after `replaceFirst` the first entry
that satisfies `p` is `entry`, and `entry` is in the list. -/
theorem find?_replaceFirst (p : Str → Bool) (entry : Str) (l : List Str)
    (hp : p entry = true) (hex : ∃ e ∈ l, p e = true) :
    (replaceFirst p entry l).find? p = some entry ∧ entry ∈ replaceFirst p entry l := by
  induction l with
  | nil => obtain ⟨e, he, _⟩ := hex; simp at he
  | cons a l ih =>
    by_cases ha : p a = true
    · simp only [replaceFirst, ha, if_true]
      exact ⟨List.find?_cons_of_pos _ hp, List.mem_cons_self _ _⟩
    · have hex2 : ∃ e ∈ l, p e = true := by
        obtain ⟨e, he, hpe⟩ := hex
        rcases List.mem_cons.mp he with rfl | he
        · exact absurd hpe ha
        · exact ⟨e, he, hpe⟩
      obtain ⟨h1, h2⟩ := ih hex2
      simp only [replaceFirst, ha, if_false, Bool.false_eq_true]
      exact ⟨by rw [List.find?_cons_of_neg _ ha, h1], List.mem_cons_of_mem _ h2⟩

/-- What `find?` finds for `q` is not changed by `replaceFirst`, when neither the replaced
entries nor the new entry satisfy `q`. -/
theorem find?_replaceFirst_frame (p q : Str → Bool) (entry : Str) (l : List Str)
    (hq : q entry = false) (hpq : ∀ e ∈ l, p e = true → q e = false) :
    (replaceFirst p entry l).find? q = l.find? q := by
  induction l with
  | nil => rfl
  | cons a l ih =>
    have ih2 := ih (fun e he => hpq e (List.mem_cons_of_mem _ he))
    by_cases ha : p a = true
    · have hqa := hpq a (List.mem_cons_self _ _) ha
      simp only [replaceFirst, ha, if_true]
      rw [List.find?_cons_of_neg _ (by simp [hq]), List.find?_cons_of_neg _ (by simp [hqa])]
    · simp only [replaceFirst, ha, if_false, Bool.false_eq_true]
      by_cases hqa : q a = true
      · rw [List.find?_cons_of_pos _ hqa, List.find?_cons_of_pos _ hqa]
      · rw [List.find?_cons_of_neg _ hqa, List.find?_cons_of_neg _ hqa, ih2]

/-- A successful `setenv` binds the name to the value, puts the entry `name=value` into the
environment and leaves the value of every other name as it was. -/
theorem getenv_setenv (os : OS) (name value : Str) (env env2 : List Str)
    (h : setenv os name value env = some env2) :
    getenv name env2 = some value ∧ (name ++ ['='] ++ value) ∈ env2 ∧
    ∀ o, '=' ∉ o → o ≠ name → getenv o env2 = getenv o env := by
  unfold setenv at h
  split_ifs at h with h1 h2
  · -- some entry binds the name: the first such entry is replaced
    rw [not_or, not_or] at h1
    have hne : '=' ∉ name := h1.2.1
    have h := (Option.some.inj h).symm
    subst h
    obtain ⟨e0, he0, hb0⟩ := List.any_eq_true.mp h2
    obtain ⟨f1, f2⟩ := find?_replaceFirst (bindsName name) (name ++ ['='] ++ value) env
      (bindsName_entry _ _) ⟨e0, he0, hb0⟩
    refine ⟨?_, f2, ?_⟩
    · unfold getenv
      rw [f1]
      simp
    · intro o ho hon
      unfold getenv
      rw [find?_replaceFirst_frame]
      · by_contra hc
        exact hon (bindsName_unique o name _ ho hne (by simpa using hc)
          (bindsName_entry _ _))
      · intro e _ hb
        by_contra hc
        exact hon (bindsName_unique o name e ho hne (by simpa using hc) hb)
  · -- no entry binds the name: a new entry is added at the end
    rw [not_or, not_or] at h1
    have hne : '=' ∉ name := h1.2.1
    have h := (Option.some.inj h).symm
    subst h
    have hnone : ∀ e ∈ env, bindsName name e = false := by
      intro e he
      by_contra hc
      exact h2 (List.any_eq_true.mpr ⟨e, he, by simpa using hc⟩)
    refine ⟨?_, by simp, ?_⟩
    · unfold getenv
      rw [find?_of_unique (bindsName name) _ (name ++ ['='] ++ value)]
      · simp
      · exact ⟨name ++ ['='] ++ value, by simp, bindsName_entry _ _⟩
      · intro e he hb
        rcases List.mem_append.mp he with he | he
        · rw [hnone e he] at hb
          exact absurd hb (by simp)
        · simpa using he
    · intro o ho hon
      unfold getenv
      have hx : bindsName o (name ++ ['='] ++ value) = false := by
        by_contra hc
        exact hon (bindsName_unique o name _ ho hne (by simpa using hc) (bindsName_entry _ _))
      have hx2 : bindsName o (name ++ '=' :: value) = false := by simpa using hx
      rw [List.find?_append]
      simp [List.find?_cons_of_neg, hx2]

/-- A successful `unsetenv` leaves no entry that binds the name. -/
theorem getenv_unsetenv (name : Str) (env env2 : List Str)
    (h : unsetenv name env = some env2) :
    getenv name env2 = none ∧ (∀ e ∈ env2, bindsName name e = false) ∧
    ∀ value, (name ++ ['='] ++ value) ∉ env2 := by
  unfold unsetenv at h
  split_ifs at h with h1
  have h := (Option.some.inj h).symm
  subst h
  have hall : ∀ e ∈ env.filter (fun e => !bindsName name e), bindsName name e = false := by
    intro e he
    have := (List.mem_filter.mp he).2
    simpa using this
  refine ⟨?_, hall, ?_⟩
  · unfold getenv
    rw [List.find?_eq_none.mpr (fun e he => by simp [hall e he])]
    rfl
  · intro value hm
    have := hall _ hm
    rw [bindsName_entry] at this
    exact absurd this (by simp)

/-- What `executeExport` does with an extra argument that contains `=`. -/
theorem executeExport_eq (os : OS) (args : List Str) (s : Shell) (a : Str)
    (ha : args[1]? = some a) (heq : '=' ∈ a) :
    executeExport os args s =
      match setenv os (c_str (nameOf a)) (c_str (valueOf a)) s.environ with
      | some env => { enter Handler.executeExport args s with environ := env }
      | none => perror os "export".toList (enter Handler.executeExport args s) := by
  unfold executeExport
  have hlen : ¬ args.length < 2 := by
    intro hl
    rw [List.getElem?_eq_none (by omega)] at ha
    exact Option.noConfusion ha
  rw [dif_neg hlen]
  have hget : args[1] = a := by
    have := List.getElem?_eq_getElem (l := args) (n := 1) (by omega)
    rw [this] at ha
    exact Option.some.inj ha
  obtain ⟨hf, ht, hd, _, _⟩ := split_at_equals a heq
  dsimp only
  rw [hget, hf]
  dsimp only
  rw [ht, hd]
  rfl

/-- What `executeEnv` prints: every entry of the environment on a line of its own. -/
theorem cout_executeEnv (args : List Str) (s : Shell) :
    (executeEnv args s).cout =
      s.cout ++ (s.environ.map (fun e => e ++ "\n".toList)).flatten := by
  unfold executeEnv
  have key : ∀ (l : List Str) (st : Shell),
      (l.foldl (fun st e => print (e ++ "\n".toList) st) st).cout =
        st.cout ++ (l.map (fun e => e ++ "\n".toList)).flatten := by
    intro l
    induction l with
    | nil => intro st; simp
    | cons e l ih =>
      intro st
      rw [List.foldl_cons, ih]
      simp [print, List.append_assoc]
  exact key _ _

/-- C12 (as the code behaves). For an extra argument `a` that contains `=`: the name, the
prefix before the first `=`, contains no `=`, the value is the whole remainder, and
`name ++ "=" ++ value = a`.  If `a` has no NUL character, the name is not empty and `setenv`
succeeds, `executeExport` changes the environment only: the name is bound to the value
(an existing binding is replaced), the entry `a` is in the environment and every other name
keeps its value.  If the name is empty (`export =value`) or `setenv` fails, the environment
is unchanged and the failure is reported through `perror`; `setenv` fails exactly when the
name it is given is empty or it finds no memory, and whenever it succeeds the environment it
returns is installed.  After `export FOO=bar`, `env` prints the entry `FOO=bar`, and
`unset FOO` then removes it. -/
theorem executeExport_sets (os : OS) (args : List Str) (s : Shell) (a : Str)
    (ha : args[1]? = some a) (heq : '=' ∈ a) :
    ('=' ∉ nameOf a ∧ nameOf a ++ ['='] ++ valueOf a = a) ∧
    (nul ∉ a → nameOf a ≠ [] → os.setenvOk (nameOf a) (valueOf a) = true →
      ∃ env, executeExport os args s =
          { enter Handler.executeExport args s with environ := env } ∧
        getenv (nameOf a) env = some (valueOf a) ∧ a ∈ env ∧
        ∀ o, '=' ∉ o → o ≠ nameOf a → getenv o env = getenv o s.environ) ∧
    ((nameOf a = [] ∨
        setenv os (c_str (nameOf a)) (c_str (valueOf a)) s.environ = none) →
      executeExport os args s =
        perror os "export".toList (enter Handler.executeExport args s) ∧
      (executeExport os args s).environ = s.environ) ∧
    (setenv os (c_str (nameOf a)) (c_str (valueOf a)) s.environ = none ↔
      (c_str (nameOf a) = [] ∨
        os.setenvOk (c_str (nameOf a)) (c_str (valueOf a)) = false)) ∧
    (∀ env, setenv os (c_str (nameOf a)) (c_str (valueOf a)) s.environ = some env →
      executeExport os args s =
        { enter Handler.executeExport args s with environ := env } ∧
      getenv (c_str (nameOf a)) env = some (c_str (valueOf a))) ∧
    (os.setenvOk "FOO".toList "bar".toList = true →
      "FOO=bar".toList ∈
        (executeExport os ["export".toList, "FOO=bar".toList] s).environ ∧
      (executeEnv ["env".toList]
          (executeExport os ["export".toList, "FOO=bar".toList] s)).cout =
        s.cout ++ (((executeExport os ["export".toList, "FOO=bar".toList] s).environ.map
          (fun e => e ++ "\n".toList)).flatten) ∧
      "FOO=bar".toList ∉
        (executeUnset os ["unset".toList, "FOO".toList]
          (executeExport os ["export".toList, "FOO=bar".toList] s)).environ ∧
      getenv "FOO".toList
        (executeUnset os ["unset".toList, "FOO".toList]
          (executeExport os ["export".toList, "FOO=bar".toList] s)).environ = none) := by
  obtain ⟨_, _, _, hne, hcat⟩ := split_at_equals a heq
  have hnulN : nul ∉ a → nul ∉ nameOf a := by
    intro h hm
    apply h
    rw [← hcat]
    simp [hm]
  have hnulV : nul ∉ a → nul ∉ valueOf a := by
    intro h hm
    apply h
    rw [← hcat]
    simp [hm]
  refine ⟨⟨hne, hcat⟩, ?_, ?_, ?_, ?_, ?_⟩
  · intro hnul hname hok
    rw [executeExport_eq os args s a ha heq, c_str_of_not_mem _ (hnulN hnul),
      c_str_of_not_mem _ (hnulV hnul)]
    have hsome : ∃ env, setenv os (nameOf a) (valueOf a) s.environ = some env := by
      unfold setenv
      rw [if_neg (by simp [hname, hne, hok])]
      split_ifs <;> exact ⟨_, rfl⟩
    obtain ⟨env, henv⟩ := hsome
    obtain ⟨g1, g2, g3⟩ := getenv_setenv os _ _ _ _ henv
    rw [henv]
    exact ⟨env, rfl, g1, by rw [hcat] at g2; exact g2, g3⟩
  · intro h
    rw [executeExport_eq os args s a ha heq]
    have hnone : setenv os (c_str (nameOf a)) (c_str (valueOf a)) s.environ = none := by
      rcases h with h | h
      · unfold setenv
        rw [h]
        simp [c_str]
      · exact h
    rw [hnone]
    exact ⟨rfl, rfl⟩
  · have hnc : '=' ∉ c_str (nameOf a) :=
      fun hm => hne ((List.takeWhile_sublist _).subset hm)
    unfold setenv
    constructor
    · intro h
      split_ifs at h with h1
      rcases h1 with h1 | h1 | h1
      · exact Or.inl h1
      · exact absurd h1 hnc
      · exact Or.inr h1
    · intro h
      rw [if_pos (by rcases h with h | h; exact Or.inl h; exact Or.inr (Or.inr h))]
  · intro env henv
    rw [executeExport_eq os args s a ha heq, henv]
    exact ⟨rfl, (getenv_setenv os _ _ _ _ henv).1⟩
  · intro hok
    have hfoo : '=' ∈ "FOO=bar".toList := by decide
    have e1 := executeExport_eq os ["export".toList, "FOO=bar".toList] s "FOO=bar".toList
      rfl hfoo
    have hn : c_str (nameOf "FOO=bar".toList) = "FOO".toList := by decide
    have hv : c_str (valueOf "FOO=bar".toList) = "bar".toList := by decide
    rw [hn, hv] at e1
    have hsome : ∃ env, setenv os "FOO".toList "bar".toList s.environ = some env := by
      have hcond : ¬ ("FOO".toList = [] ∨ '=' ∈ "FOO".toList ∨
          os.setenvOk "FOO".toList "bar".toList = false) := by
        rw [hok]; decide
      unfold setenv
      rw [if_neg hcond]
      split_ifs <;> exact ⟨_, rfl⟩
    obtain ⟨env, henv⟩ := hsome
    obtain ⟨_, g2, _⟩ := getenv_setenv os _ _ _ _ henv
    rw [henv] at e1
    rw [e1]
    have hu : ∃ env2, unsetenv "FOO".toList env = some env2 := by
      unfold unsetenv
      rw [if_neg (by decide)]
      exact ⟨_, rfl⟩
    obtain ⟨env2, henv2⟩ := hu
    obtain ⟨u1, _, u3⟩ := getenv_unsetenv _ _ _ henv2
    have e2 : (executeUnset os ["unset".toList, "FOO".toList]
        { enter Handler.executeExport ["export".toList, "FOO=bar".toList] s with
          environ := env }).environ = env2 := by
      unfold executeUnset
      rw [dif_neg (by decide)]
      have hc : c_str (["unset".toList, "FOO".toList][1]) = "FOO".toList := by decide
      dsimp only [enter]
      rw [hc, henv2]
    refine ⟨g2, ?_, ?_, ?_⟩
    · rw [cout_executeEnv]
      rfl
    · rw [e2]
      exact u3 "bar".toList
    · rw [e2]
      exact u1

theorem executeExport_sets_witness :
    ('=' ∉ nameOf "PATH=/opt/bin:a=b".toList ∧
      nameOf "PATH=/opt/bin:a=b".toList ++ ['='] ++ valueOf "PATH=/opt/bin:a=b".toList =
        "PATH=/opt/bin:a=b".toList) ∧
    (∃ env, executeExport sampleOS ["export".toList, "PATH=/opt/bin:a=b".toList] sampleShell =
        { enter Handler.executeExport ["export".toList, "PATH=/opt/bin:a=b".toList] sampleShell
          with environ := env } ∧
      getenv (nameOf "PATH=/opt/bin:a=b".toList) env =
        some (valueOf "PATH=/opt/bin:a=b".toList) ∧
      "PATH=/opt/bin:a=b".toList ∈ env ∧
      ∀ o, '=' ∉ o → o ≠ nameOf "PATH=/opt/bin:a=b".toList →
        getenv o env = getenv o sampleShell.environ) ∧
    (executeExport sampleOS ["export".toList, "PATH=/opt/bin:a=b".toList] sampleShell).environ =
      ["HOME=/home/user".toList, "PATH=/opt/bin:a=b".toList] ∧
    (executeExport sampleOS ["export".toList, "EMPTY=".toList] sampleShell).environ =
      ["HOME=/home/user".toList, "PATH=/usr/bin:/bin".toList, "EMPTY=".toList] ∧
    (executeExport sampleOS ["export".toList, "FOO=3".toList] dupShell).environ =
      ["FOO=3".toList, "BAR=x".toList, "FOO=2".toList] ∧
    (executeExport noMemoryOS ["export".toList, ['A', nul, 'B', '=', 'c']] sampleShell =
        perror noMemoryOS "export".toList
          (enter Handler.executeExport ["export".toList, ['A', nul, 'B', '=', 'c']]
            sampleShell) ∧
      (executeExport noMemoryOS ["export".toList, ['A', nul, 'B', '=', 'c']]
        sampleShell).environ = sampleShell.environ) :=
  ⟨(executeExport_sets sampleOS ["export".toList, "PATH=/opt/bin:a=b".toList] sampleShell
      "PATH=/opt/bin:a=b".toList rfl (by decide)).1,
   (executeExport_sets sampleOS ["export".toList, "PATH=/opt/bin:a=b".toList] sampleShell
      "PATH=/opt/bin:a=b".toList rfl (by decide)).2.1 (by decide) (by decide) rfl,
   by decide, by decide,
   congrArg Shell.environ
     ((executeExport_sets sampleOS ["export".toList, "FOO=3".toList] dupShell
        "FOO=3".toList rfl (by decide)).2.2.2.2.1
        ["FOO=3".toList, "BAR=x".toList, "FOO=2".toList] (by decide)).1,
   (executeExport_sets noMemoryOS ["export".toList, ['A', nul, 'B', '=', 'c']] sampleShell
      ['A', nul, 'B', '=', 'c'] rfl (by decide)).2.2.1 (Or.inr (by decide))⟩

/-- C12 as stated fails.  For `export =foo` the argument contains `=`, but the name is empty:
`setenv` rejects it, the environment is unchanged and nothing is bound.  With a NUL character
in the name only the part before it reaches `setenv`.  And when `setenv` finds no memory the
environment is unchanged as well. -/
theorem executeExport_sets_counterexample :
    ('=' ∈ "=foo".toList ∧
      (executeExport sampleOS ["export".toList, "=foo".toList] sampleShell).environ =
        sampleShell.environ ∧
      getenv (nameOf "=foo".toList)
        (executeExport sampleOS ["export".toList, "=foo".toList] sampleShell).environ
        ≠ some (valueOf "=foo".toList) ∧
      (executeExport sampleOS ["export".toList, "=foo".toList] sampleShell).cerr ≠ []) ∧
    ('=' ∈ ['A', nul, 'B', '=', 'c'] ∧
      (executeExport sampleOS ["export".toList, ['A', nul, 'B', '=', 'c']] sampleShell).environ =
        sampleShell.environ ++ ["A=c".toList] ∧
      getenv (nameOf ['A', nul, 'B', '=', 'c'])
        (executeExport sampleOS ["export".toList, ['A', nul, 'B', '=', 'c']]
          sampleShell).environ = none) ∧
    ('=' ∈ "FOO=bar".toList ∧
      (executeExport noMemoryOS ["export".toList, "FOO=bar".toList] sampleShell).environ =
        sampleShell.environ) := by
  decide

/-! ### C14: only `exit` stops the interpreter -/

theorem continues_refl (s : Shell) : Continues s s := ⟨rfl, rfl⟩

theorem continues_trans {a b c : Shell} (h1 : Continues a b) (h2 : Continues b c) :
    Continues a c := ⟨h2.1.trans h1.1, h2.2.trans h1.2⟩

theorem continues_foldl {α : Type} (f : Shell → α → Shell) (hf : ∀ st x, Continues st (f st x))
    (l : List α) (s : Shell) : Continues s (l.foldl f s) := by
  induction l generalizing s with
  | nil => exact continues_refl s
  | cons x l ih => exact continues_trans (hf s x) (ih (f s x))

theorem continues_addToHistory (command : Str) (s : Shell) :
    Continues s (addToHistory command s) := by
  unfold addToHistory
  dsimp only
  split_ifs <;> exact ⟨rfl, rfl⟩

theorem continues_executeHistory (args : List Str) (s : Shell) :
    Continues s (executeHistory args s) := by
  rw [executeHistory_eq]
  exact ⟨rfl, rfl⟩

theorem continues_executeEcho (args : List Str) (s : Shell) :
    Continues s (executeEcho args s) := by
  rw [executeEcho_eq]
  exact ⟨rfl, rfl⟩

theorem continues_executeEnv (args : List Str) (s : Shell) :
    Continues s (executeEnv args s) := by
  unfold executeEnv
  refine continues_trans (b := enter Handler.executeEnv args s) ⟨rfl, rfl⟩
    (continues_foldl _ (fun st e => ?_) _ _)
  exact ⟨rfl, rfl⟩

theorem continues_executeExport (os : OS) (args : List Str) (s : Shell) :
    Continues s (executeExport os args s) := by
  unfold executeExport
  split_ifs
  · exact ⟨rfl, rfl⟩
  · dsimp only
    split
    · exact ⟨rfl, rfl⟩
    · split <;> exact ⟨rfl, rfl⟩

theorem continues_executeUnset (os : OS) (args : List Str) (s : Shell) :
    Continues s (executeUnset os args s) := by
  unfold executeUnset
  split_ifs
  · exact ⟨rfl, rfl⟩
  · dsimp only
    split <;> exact ⟨rfl, rfl⟩

/-- For a non-empty argument vector `changeDirectory` returns, whatever `chdir` and `getcwd`
answer, and the interpreter goes on. -/
theorem continues_changeDirectory (os : OS) (args : List Str) (hargs : args ≠ []) (s : Shell) :
    ∃ s2, changeDirectory os args s = some s2 ∧ Continues s s2 := by
  obtain ⟨target, ht⟩ : ∃ target,
      (if args.length = 1 then
        some ((getenv "HOME".toList (enter Handler.changeDirectory args s).environ).getD
          "/".toList)
       else args[1]?) = some target := by
    split_ifs with h1
    · exact ⟨_, rfl⟩
    · have h2 : 1 < args.length := by
        have : args.length ≠ 0 := fun h0 => hargs (List.length_eq_zero.mp h0)
        omega
      exact ⟨args[1], by simp [h2]⟩
  unfold changeDirectory
  simp only [ht]
  split_ifs
  · split
    · exact ⟨_, rfl, rfl, rfl⟩
    · exact ⟨_, rfl, rfl, rfl⟩
  · exact ⟨_, rfl, rfl, rfl⟩

/-- For a non-empty argument vector the launcher returns in the interpreter, whatever `fork`,
`execvp` and `waitpid` do, and the interpreter goes on. -/
theorem continues_executeExternalCommand (os : OS) (args : List Str) (hargs : args ≠ [])
    (s : Shell) :
    ∃ s2, executeExternalCommand os args s = some s2 ∧ Continues s s2 := by
  obtain ⟨a, as, rfl⟩ := List.exists_cons_of_ne_nil hargs
  unfold executeExternalCommand
  cases os.spawn (List.map c_str (a :: as)) with
  | forkFailed => exact ⟨_, rfl, rfl, rfl⟩
  | launched execFailed wait =>
    cases execFailed <;> rcases wait with _ | (_ | _ | _) <;>
      simp [enter, eprint, perror, Continues]

/-- Every branch of `executeBuiltin` other than `exit` returns and lets the interpreter go
on. -/
theorem continues_executeBuiltin (os : OS) (command : Str) (args : List Str)
    (hargs : args ≠ []) (hc : command ≠ "exit".toList) (s : Shell) :
    ∃ s2, executeBuiltin os command args s = some s2 ∧ Continues s s2 := by
  unfold executeBuiltin
  rw [if_neg hc]
  split_ifs
  · exact continues_changeDirectory os args hargs s
  · exact ⟨_, rfl, rfl, rfl⟩
  · exact ⟨_, rfl, rfl, rfl⟩
  · exact ⟨_, rfl, continues_executeEcho args s⟩
  · exact ⟨_, rfl, continues_executeEnv args s⟩
  · exact ⟨_, rfl, continues_executeExport os args s⟩
  · exact ⟨_, rfl, continues_executeUnset os args s⟩
  · exact ⟨_, rfl, continues_executeHistory args s⟩
  · exact ⟨_, rfl, continues_refl s⟩

/-- C14. For a state with `running = true` in a live process, a line whose first token is not
`exit`, and every outcome of the system calls, `executeCommand` returns in the interpreter
with `running` still true and without the process having called `exit`. -/
theorem executeCommand_continues (os : OS) (input : Str) (s : Shell)
    (hrun : s.running = true) (hlive : s.exitCode = none)
    (hfirst : (parseCommand input).head? ≠ some "exit".toList) :
    ∃ s2, executeCommand os input s = some s2 ∧ s2.running = true ∧ s2.exitCode = none := by
  have key : ∃ s2, executeCommand os input s = some s2 ∧ Continues s s2 := by
    unfold executeCommand
    dsimp only
    split_ifs with h1 h2
    · exact ⟨s, rfl, continues_refl s⟩
    · have hc : (parseCommand input).head h1 ≠ "exit".toList := by
        intro hc
        apply hfirst
        rw [List.head?_eq_head h1, hc]
      obtain ⟨s2, e, c⟩ := continues_executeBuiltin os _ (parseCommand input) h1 hc
        (addToHistory input s)
      exact ⟨s2, e, continues_trans (continues_addToHistory input s) c⟩
    · obtain ⟨s2, e, c⟩ := continues_executeExternalCommand os (parseCommand input) h1
        (addToHistory input s)
      exact ⟨s2, e, continues_trans (continues_addToHistory input s) c⟩
  obtain ⟨s2, e, c⟩ := key
  exact ⟨s2, e, c.1.trans hrun, c.2.trans hlive⟩

theorem executeCommand_continues_witness :
    (∃ s2, executeCommand hostileOS "cd /nonexistent-path".toList sampleShell = some s2 ∧
      s2.running = true ∧ s2.exitCode = none) ∧
    (∃ s2, executeCommand hostileOS "no-such-program -x".toList sampleShell = some s2 ∧
      s2.running = true ∧ s2.exitCode = none) ∧
    (∃ s2, executeCommand hostileOS "export FOO=bar".toList sampleShell = some s2 ∧
      s2.running = true ∧ s2.exitCode = none) ∧
    (∃ s2, executeCommand sampleOS "export BADFORMAT".toList sampleShell = some s2 ∧
      s2.running = true ∧ s2.exitCode = none) ∧
    (∃ s2, executeCommand signalOS "sleep 100".toList sampleShell = some s2 ∧
      s2.running = true ∧ s2.exitCode = none) ∧
    (∃ s2, executeCommand noForkOS "ls".toList sampleShell = some s2 ∧
      s2.running = true ∧ s2.exitCode = none) :=
  ⟨executeCommand_continues hostileOS "cd /nonexistent-path".toList sampleShell rfl rfl
      (by decide),
   executeCommand_continues hostileOS "no-such-program -x".toList sampleShell rfl rfl
      (by decide),
   executeCommand_continues hostileOS "export FOO=bar".toList sampleShell rfl rfl (by decide),
   executeCommand_continues sampleOS "export BADFORMAT".toList sampleShell rfl rfl (by decide),
   executeCommand_continues signalOS "sleep 100".toList sampleShell rfl rfl (by decide),
   executeCommand_continues noForkOS "ls".toList sampleShell rfl rfl (by decide)⟩

/-! ### C15: the launcher and the child's status -/

/-- C15. For a non-empty argument vector and a launched child: after a normal exit with any
status the parent side writes nothing; after termination by signal `g` it writes the signal
number to the error stream; exactly these two cases of `waitpid` differ.  The "command not
found" message is written by the launched side, exactly when the executable cannot be run,
and then the parent adds nothing for the status 127.  When `fork` fails only the `perror`
text is written.  Nothing but the error stream (and the ghost log) changes. -/
theorem executeExternalCommand_status (os : OS) (name : Str) (rest : List Str) (s : Shell) :
    (∀ execFailed status,
      os.spawn ((name :: rest).map c_str) =
          Spawn.launched execFailed (some (ChildStatus.exited status)) →
        executeExternalCommand os (name :: rest) s =
          some (childOutput execFailed name
            (enter Handler.executeExternalCommand (name :: rest) s))) ∧
    (∀ execFailed g,
      os.spawn ((name :: rest).map c_str) =
          Spawn.launched execFailed (some (ChildStatus.signaled g)) →
        executeExternalCommand os (name :: rest) s =
          some (eprint
            ("Process terminated by signal ".toList ++ (Nat.repr g).toList ++ "\n".toList)
            (childOutput execFailed name
              (enter Handler.executeExternalCommand (name :: rest) s)))) ∧
    (os.spawn ((name :: rest).map c_str) =
        Spawn.launched true (some (ChildStatus.exited 127)) →
      (executeExternalCommand os (name :: rest) s).map Shell.cerr =
        some (s.cerr ++ ("shell: ".toList ++ name ++ ": command not found\n".toList))) ∧
    (∀ status, os.spawn ((name :: rest).map c_str) =
        Spawn.launched false (some (ChildStatus.exited status)) →
      (executeExternalCommand os (name :: rest) s).map Shell.cerr = some s.cerr) ∧
    (os.spawn ((name :: rest).map c_str) = Spawn.forkFailed →
      executeExternalCommand os (name :: rest) s =
        some (perror os "fork".toList
          (enter Handler.executeExternalCommand (name :: rest) s))) ∧
    (∀ s2, executeExternalCommand os (name :: rest) s = some s2 →
      s2.cout = s.cout ∧ s2.environ = s.environ ∧ s2.commandHistory = s.commandHistory ∧
      s2.currentDirectory = s.currentDirectory ∧ s2.running = s.running ∧
      s2.exitCode = s.exitCode) := by
  refine ⟨fun ef st h => ?_, fun ef g h => ?_, fun h => ?_, fun st h => ?_, fun h => ?_,
    fun s2 h => ?_⟩
  · unfold executeExternalCommand
    rw [h]
    cases ef <;> simp [childOutput]
  · unfold executeExternalCommand
    rw [h]
    cases ef <;> simp [childOutput]
  · unfold executeExternalCommand
    rw [h]
    simp [eprint, enter]
  · unfold executeExternalCommand
    rw [h]
    simp [enter]
  · unfold executeExternalCommand
    rw [h]
  · unfold executeExternalCommand at h
    cases hsp : os.spawn (List.map c_str (name :: rest)) with
    | forkFailed =>
      rw [hsp] at h
      have := (Option.some.inj h).symm
      subst this
      exact ⟨rfl, rfl, rfl, rfl, rfl, rfl⟩
    | launched ef wait =>
      rw [hsp] at h
      cases ef <;> rcases wait with _ | (_ | _ | _) <;>
        simp [enter, eprint, perror] at h <;> subst h <;> exact ⟨rfl, rfl, rfl, rfl, rfl, rfl⟩

theorem executeExternalCommand_status_witness :
    (executeExternalCommand hostileOS ["nosuch".toList] sampleShell).map Shell.cerr =
      some "shell: nosuch: command not found\n".toList ∧
    (executeExternalCommand sampleOS ["true".toList] sampleShell).map Shell.cerr = some [] ∧
    (executeExternalCommand signalOS ["sleep".toList, "100".toList] sampleShell).map Shell.cerr =
      some "Process terminated by signal 9\n".toList ∧
    (executeExternalCommand noForkOS ["ls".toList] sampleShell).map Shell.cerr =
      some "fork: Resource temporarily unavailable\n".toList :=
  ⟨(executeExternalCommand_status hostileOS "nosuch".toList [] sampleShell).2.2.1 rfl,
   (executeExternalCommand_status sampleOS "true".toList [] sampleShell).2.2.2.1 0 rfl,
   (congrArg (Option.map Shell.cerr)
      ((executeExternalCommand_status signalOS "sleep".toList ["100".toList] sampleShell).2.1
        false 9 rfl)).trans (by decide),
   (congrArg (Option.map Shell.cerr)
      ((executeExternalCommand_status noForkOS "ls".toList [] sampleShell).2.2.2.2.1
        rfl)).trans (by decide)⟩

/-! ### C16: `changeDirectory` -/

/-- What `changeDirectory` does for a non-empty argument vector, in terms of the target. -/
theorem changeDirectory_eq (os : OS) (args : List Str) (hargs : args ≠ []) (s : Shell) :
    changeDirectory os args s =
      if os.chdir (c_str (cdTarget args s.environ)) then
        match os.getcwd (c_str (cdTarget args s.environ)) with
        | some cwd => some { enter Handler.changeDirectory args s with currentDirectory := cwd }
        | none => some (enter Handler.changeDirectory args s)
      else some (perror os "cd".toList (enter Handler.changeDirectory args s)) := by
  unfold changeDirectory
  rcases args with _ | ⟨a0, _ | ⟨a1, rest⟩⟩
  · exact absurd rfl hargs
  · rfl
  · have hlen : ¬ (a0 :: a1 :: rest).length = 1 := by simp
    have h1 : (a0 :: a1 :: rest)[1]? = some a1 := by simp
    dsimp only
    rw [if_neg hlen, h1]
    rfl

/-- C16. For a non-empty argument vector the target of `changeDirectory` is the value of
`HOME` (or `/` when unset) if there is no extra argument, and the extra argument otherwise.
If `chdir` fails, the cached directory is unchanged and an error is reported.  If it
succeeds, the cached directory becomes the directory `getcwd` reports; if `getcwd` reports
nothing it stays as it was.  Nothing else changes. -/
theorem changeDirectory_contract (os : OS) (args : List Str) (hargs : args ≠ []) (s : Shell) :
    (args.length = 1 → cdTarget args s.environ = (getenv "HOME".toList s.environ).getD "/".toList) ∧
    (∀ a, args[1]? = some a → cdTarget args s.environ = a) ∧
    (os.chdir (c_str (cdTarget args s.environ)) = false →
      changeDirectory os args s =
        some (perror os "cd".toList (enter Handler.changeDirectory args s)) ∧
      (changeDirectory os args s).map Shell.currentDirectory = some s.currentDirectory) ∧
    (os.chdir (c_str (cdTarget args s.environ)) = true →
      (∀ cwd, os.getcwd (c_str (cdTarget args s.environ)) = some cwd →
        changeDirectory os args s =
          some { enter Handler.changeDirectory args s with currentDirectory := cwd } ∧
        (changeDirectory os args s).map Shell.currentDirectory = some cwd) ∧
      (os.getcwd (c_str (cdTarget args s.environ)) = none →
        changeDirectory os args s = some (enter Handler.changeDirectory args s))) ∧
    (getenv "HOME".toList s.environ = some "/tmp".toList → os.chdir "/tmp".toList = true →
      os.getcwd "/tmp".toList = some "/tmp".toList →
      (changeDirectory os ["cd".toList] s).map Shell.currentDirectory = some "/tmp".toList) := by
  have heq := changeDirectory_eq os args hargs s
  refine ⟨fun h1 => ?_, fun a ha => ?_, fun hf => ?_, fun ht => ⟨fun cwd hc => ?_, fun hn => ?_⟩,
    fun hhome hch hcwd => ?_⟩
  · rcases args with _ | ⟨a0, _ | ⟨a1, rest⟩⟩
    · exact absurd rfl hargs
    · rfl
    · simp at h1
  · rcases args with _ | ⟨a0, _ | ⟨a1, rest⟩⟩
    · exact absurd rfl hargs
    · simp at ha
    · simpa [cdTarget] using ha
  · rw [heq, hf]
    exact ⟨rfl, rfl⟩
  · rw [heq, ht, hc]
    exact ⟨rfl, rfl⟩
  · rw [heq, ht, hn]
    rfl
  · have e := changeDirectory_eq os ["cd".toList] (by decide) s
    have ht : cdTarget ["cd".toList] s.environ = "/tmp".toList := by
      show (getenv "HOME".toList s.environ).getD "/".toList = _
      rw [hhome]
      rfl
    have hc : c_str "/tmp".toList = "/tmp".toList := by decide
    rw [ht, hc, hch, hcwd] at e
    rw [e]
    rfl

theorem changeDirectory_contract_witness :
    (changeDirectory sampleOS ["cd".toList] tmpShell).map Shell.currentDirectory =
      some "/tmp".toList ∧
    (changeDirectory sampleOS ["cd".toList, "/var/log".toList] tmpShell).map
      Shell.currentDirectory = some "/var/log".toList ∧
    (changeDirectory hostileOS ["cd".toList, "/nonexistent-path".toList] tmpShell).map
      Shell.currentDirectory = some "/home/user".toList ∧
    (changeDirectory hostileOS ["cd".toList, "/nonexistent-path".toList] tmpShell).map
      Shell.cerr = some "cd: Operation failed\n".toList :=
  ⟨(changeDirectory_contract sampleOS ["cd".toList] (by decide) tmpShell).2.2.2.2 rfl rfl rfl,
   ((changeDirectory_contract sampleOS ["cd".toList, "/var/log".toList] (by decide)
      tmpShell).2.2.2.1 rfl).1 "/var/log".toList rfl |>.2,
   ((changeDirectory_contract hostileOS ["cd".toList, "/nonexistent-path".toList] (by decide)
      tmpShell).2.2.1 rfl).2,
   (congrArg (Option.map Shell.cerr)
      ((changeDirectory_contract hostileOS ["cd".toList, "/nonexistent-path".toList]
        (by decide) tmpShell).2.2.1 rfl).1).trans (by decide)⟩

/-! ### C20: index safety -/

/-- The cast of a size to `int` never exceeds the size. -/
theorem toInt32_le (size : Nat) : toInt32 (size : Int) ≤ size := by
  unfold toInt32
  have e1 : (2 : Int) ^ 31 = 2147483648 := by norm_num
  have e2 : (2 : Int) ^ 32 = 4294967296 := by norm_num
  rw [e1, e2]
  omega

theorem historyStart_eq_startFor (args : List Str) (size : Nat) :
    historyStart args size =
      if h : 1 < args.length then startFor (atoi (c_str args[1])) size else 0 := rfl

/-- For every integer `n`: when the guard of `executeHistory` holds, `n` is positive and below
the size, so `size - n` does not wrap around and lies strictly between 0 and `size`. -/
theorem startFor_bounds (n : Int) (size : Nat) :
    startFor n size ≤ size ∧
    (n > 0 ∧ n < toInt32 (size : Int) →
      0 < n.toNat ∧ n.toNat < size ∧ (n.toNat : Int) = n ∧ startFor n size = size - n.toNat) := by
  have hle := toInt32_le size
  unfold startFor
  constructor
  · split_ifs <;> omega
  · intro h
    rw [if_pos h]
    omega

theorem historyStart_le (args : List Str) (size : Nat) : historyStart args size ≤ size := by
  rw [historyStart_eq_startFor]
  split_ifs
  · exact (startFor_bounds _ _).1
  · omega

/-- The loop of `executeHistory` is the loop over `historyReads`. -/
theorem executeHistory_reads (args : List Str) (s : Shell) :
    executeHistory args s =
      (historyReads args s.commandHistory.length).foldl
        (fun st i => print (historyLine i (s.commandHistory.getD i [])) st)
        (enter Handler.executeHistory args s) := rfl

/-- C20. Every indexed access is in bounds.  `executeCommand` returns a state for every line,
state and system behaviour: the accesses the source makes without a test of its own (`args[0]`
in `executeCommand` and in the launcher, `args[1]` in the `else` branch of `cd`) are never out
of range, while they would be for an empty argument vector.  The accesses behind a size test
(`exit`, `export`, `unset`, `history`) are bounds-checked by their guard.  In `executeHistory`,
for every integer `n`, `start ≤ size`, the subtraction `size - n` is taken only for
`0 < n < size`, and every index read is below the size. -/
theorem executeCommand_index_safe (os : OS) (input : Str) (s : Shell) :
    (∃ s2, executeCommand os input s = some s2) ∧
    (∀ args, args ≠ [] → ∃ s2, changeDirectory os args s = some s2) ∧
    (∀ args, args ≠ [] → ∃ s2, executeExternalCommand os args s = some s2) ∧
    changeDirectory os [] s = none ∧
    (∀ args, (executeBuiltin os "exit".toList args s).isSome = true) ∧
    (∀ (n : Int) (size : Nat), startFor n size ≤ size ∧
      (n > 0 ∧ n < toInt32 (size : Int) →
        0 < n.toNat ∧ n.toNat < size ∧ (n.toNat : Int) = n ∧
        startFor n size = size - n.toNat)) ∧
    (∀ args, historyStart args s.commandHistory.length ≤ s.commandHistory.length ∧
      ∀ i ∈ historyReads args s.commandHistory.length,
        i < s.commandHistory.length ∧ s.commandHistory[i]? ≠ none) := by
  refine ⟨?_, ?_, ?_, rfl, ?_, startFor_bounds, ?_⟩
  · unfold executeCommand
    dsimp only
    split_ifs with h1 h2
    · exact ⟨s, rfl⟩
    · obtain ⟨s2, e, _⟩ := executeBuiltin_calls os _ (parseCommand input) h1
        ((isBuiltinCommand_iff _).mp h2) (addToHistory input s)
      exact ⟨s2, e⟩
    · obtain ⟨s2, e, _⟩ := calls_executeExternalCommand os (parseCommand input) h1
        (addToHistory input s)
      exact ⟨s2, e⟩
  · intro args hargs
    obtain ⟨s2, e, _⟩ := calls_changeDirectory os args hargs s
    exact ⟨s2, e⟩
  · intro args hargs
    obtain ⟨s2, e, _⟩ := calls_executeExternalCommand os args hargs s
    exact ⟨s2, e⟩
  · intro args
    unfold executeBuiltin
    rw [if_pos rfl]
    dsimp only
    split_ifs <;> rfl
  · intro args
    have hle := historyStart_le args s.commandHistory.length
    refine ⟨hle, fun i hi => ?_⟩
    unfold historyReads at hi
    rw [List.mem_range'_1] at hi
    have hlt : i < s.commandHistory.length := by omega
    exact ⟨hlt, by rw [List.getElem?_eq_getElem hlt]; exact Option.some_ne_none _⟩

/-! ### C11: `exit` -/

theorem digitChar_digit (d : Nat) (h : d < 10) :
    isdigit (Nat.digitChar d) = true ∧ (Nat.digitChar d).toNat - 48 = d := by
  interval_cases d <;> decide

/-- The digits `Nat.toDigitsCore` puts in front of `ds` are decimal digits, and the digit loop
of `strtol` reads the number back from them. -/
theorem toDigitsCore_digitsValue (fuel n : Nat) (ds : List Char) (h : n < fuel) :
    ∃ pre, Nat.toDigitsCore 10 fuel n ds = pre ++ ds ∧ pre ≠ [] ∧
      (∀ c ∈ pre, isdigit c = true) ∧
      ∀ acc rest, digitsValue (pre ++ rest) acc =
        digitsValue rest (acc * 10 ^ pre.length + n) := by
  induction fuel generalizing n ds with
  | zero => omega
  | succ fuel ih =>
    have hd := digitChar_digit (n % 10) (Nat.mod_lt _ (by norm_num))
    unfold Nat.toDigitsCore
    dsimp only
    split_ifs with h0
    · refine ⟨[Nat.digitChar (n % 10)], rfl, by simp, ?_, ?_⟩
      · intro c hc
        rw [List.mem_singleton.mp hc]
        exact hd.1
      · intro acc rest
        have hn : n % 10 = n := by omega
        rw [hn] at hd
        simp only [List.singleton_append, digitsValue, hd.1, if_true, hd.2, List.length_singleton,
          pow_one, hn]
        rfl
    · obtain ⟨pre, e, _, hdig, hval⟩ := ih (n / 10) (Nat.digitChar (n % 10) :: ds) (by omega)
      refine ⟨pre ++ [Nat.digitChar (n % 10)], by rw [e]; simp, by simp, ?_, ?_⟩
      · intro c hc
        rcases List.mem_append.mp hc with hc | hc
        · exact hdig c hc
        · rw [List.mem_singleton.mp hc]
          exact hd.1
      · intro acc rest
        rw [List.append_assoc, hval]
        simp only [List.singleton_append, digitsValue, hd.1, if_true, hd.2, List.length_append,
          List.length_singleton, pow_succ]
        congr 1
        have := Nat.div_add_mod n 10
        nlinarith [this]

/-- The decimal numeral of a natural number: digits only, read back by the digit loop. -/
theorem repr_digitsValue (n : Nat) :
    (Nat.repr n).toList ≠ [] ∧ (∀ c ∈ (Nat.repr n).toList, isdigit c = true) ∧
    digitsValue (Nat.repr n).toList 0 = n := by
  obtain ⟨pre, e, hne, hdig, hval⟩ := toDigitsCore_digitsValue (n + 1) n [] (by omega)
  have hr : (Nat.repr n).toList = pre := by
    rw [List.append_nil] at e
    exact e
  rw [hr]
  refine ⟨hne, hdig, ?_⟩
  have := hval 0 []
  simpa [digitsValue] using this

/-- A decimal digit is no white space, no sign and not the NUL character. -/
theorem isdigit_plain (c : Char) (h : isdigit c = true) :
    isspace c = false ∧ c ≠ '-' ∧ c ≠ '+' ∧ c ≠ Char.ofNat 0 := by
  simp only [isdigit, Bool.and_eq_true, decide_eq_true_eq] at h
  refine ⟨?_, ?_, ?_, ?_⟩
  · by_contra hs
    have hs2 : isspace c = true := by simpa using hs
    simp only [isspace, Bool.or_eq_true, decide_eq_true_eq] at hs2
    rcases hs2 with ((((e | e) | e) | e) | e) | e <;> subst e <;> revert h <;> decide
  · intro e; subst e; revert h; decide
  · intro e; subst e; revert h; decide
  · intro e; subst e; revert h; decide

/-- The conversion of a value in the range of `int` loses nothing. -/
theorem atoi_of_strtolValue (s : Str) (n : Int) (h : strtolValue s = n)
    (h1 : -(2 ^ 31) ≤ n) (h2 : n < 2 ^ 31) : atoi s = n := by
  unfold atoi toInt32
  rw [h]
  have e1 : (2 : Int) ^ 31 = 2147483648 := by norm_num
  have e2 : (2 : Int) ^ 32 = 4294967296 := by norm_num
  have e3 : (2 : Int) ^ 63 = 9223372036854775808 := by norm_num
  rw [e1] at h1 h2
  rw [e1, e2, e3, min_eq_left (by omega), max_eq_right (by omega)]
  omega

/-- On a non-empty string of digits `strtol` reads the value of the digit loop. -/
theorem strtolValue_digits (s : Str) (hne : s ≠ []) (hd : ∀ c ∈ s, isdigit c = true) :
    c_str s = s ∧ strtolValue s = (digitsValue s 0 : Int) ∧
    strtolValue (c_str ('-' :: s)) = - (digitsValue s 0 : Int) := by
  obtain ⟨c, cs, rfl⟩ := List.exists_cons_of_ne_nil hne
  have hc := isdigit_plain c (hd c (List.mem_cons_self _ _))
  have hcs : c_str (c :: cs) = c :: cs := by
    unfold c_str
    rw [List.takeWhile_eq_self_iff]
    intro x hx
    simpa using (isdigit_plain x (hd x hx)).2.2.2
  have hminus : c_str ('-' :: c :: cs) = '-' :: c :: cs := by
    have h0 : ('-' : Char) ≠ Char.ofNat 0 := by decide
    unfold c_str at hcs ⊢
    rw [List.takeWhile_cons_of_pos (by simp [h0]), hcs]
  refine ⟨hcs, ?_, ?_⟩
  · unfold strtolValue
    rw [List.dropWhile_cons_of_neg (by simp [hc.1])]
    simp only [hc.2.1, hc.2.2.1, if_false]
  · rw [hminus]
    unfold strtolValue
    rw [List.dropWhile_cons_of_neg (by decide)]
    simp only [if_true]

/-- An integer in the range of `int`, written in decimal, converts to itself. -/
theorem atoi_decimal (n : Int) (h1 : -(2 ^ 31) ≤ n) (h2 : n < 2 ^ 31) :
    atoi (c_str (decimal n)) = n := by
  unfold decimal
  split_ifs with hneg
  · obtain ⟨hne, hd, hv⟩ := repr_digitsValue n.natAbs
    obtain ⟨_, _, h3⟩ := strtolValue_digits _ hne hd
    apply atoi_of_strtolValue _ _ _ h1 h2
    rw [h3, hv]
    omega
  · obtain ⟨hne, hd, hv⟩ := repr_digitsValue n.toNat
    obtain ⟨h3, h4, _⟩ := strtolValue_digits _ hne hd
    rw [h3]
    apply atoi_of_strtolValue _ _ _ h1 h2
    rw [h4, hv]
    omega

theorem digitsValue_of_no_digit (s : Str) (h : ∀ c ∈ s, isdigit c = false) (acc : Nat) :
    digitsValue s acc = acc := by
  cases s with
  | nil => rfl
  | cons c cs => simp [digitsValue, h c (List.mem_cons_self _ _)]

/-- An argument without any digit converts to 0. -/
theorem atoi_of_no_digit (a : Str) (h : ∀ c ∈ a, isdigit c = false) : atoi (c_str a) = 0 := by
  have h1 : ∀ c ∈ c_str a, isdigit c = false :=
    fun c hc => h c ((List.takeWhile_sublist _).subset hc)
  have h2 : ∀ c ∈ (c_str a).dropWhile isspace, isdigit c = false :=
    fun c hc => h1 c ((List.dropWhile_sublist _).subset hc)
  have hz : strtolValue (c_str a) = 0 := by
    unfold strtolValue
    cases hdw : (c_str a).dropWhile isspace with
    | nil => rfl
    | cons c cs =>
      rw [hdw] at h2
      have hcs : ∀ x ∈ cs, isdigit x = false := fun x hx => h2 x (List.mem_cons_of_mem _ hx)
      dsimp only
      split_ifs
      · rw [digitsValue_of_no_digit cs hcs]; rfl
      · rw [digitsValue_of_no_digit cs hcs]; rfl
      · rw [digitsValue_of_no_digit (c :: cs) h2]; rfl
  exact atoi_of_strtolValue _ 0 hz (by norm_num) (by norm_num)

/-- Once the running flag is false the loop ends without reading a line. -/
theorem runLoop_stopped (os : OS) (lines : List Str) (s : Shell) (h : s.running = false) :
    runLoop os lines s = some s := by
  cases lines <;> simp [runLoop, h]

/-- A line whose first token is `exit` is recorded and handled by the `exit` branch. -/
theorem executeCommand_exit_line (os : OS) (line : Str) (more : List Str)
    (hp : parseCommand line = "exit".toList :: more) (s : Shell) :
    executeCommand os line s =
      executeBuiltin os "exit".toList ("exit".toList :: more) (addToHistory line s) := by
  unfold executeCommand
  simp only [hp, List.cons_ne_nil, dite_false, List.head_cons, reduceCtorEq]
  rw [if_pos (by decide)]

/-- The `exit` branch without extra argument: the farewell is printed and the running flag is
cleared; the process is not terminated. -/
theorem executeBuiltin_exit_plain (os : OS) (args : List Str) (hlen : args.length ≤ 1)
    (s : Shell) :
    executeBuiltin os "exit".toList args s =
      some { print "Goodbye!\n".toList (enter Handler.exitBranch args s) with
        running := false } := by
  unfold executeBuiltin
  rw [if_pos rfl]
  dsimp only
  rw [dif_neg (by omega)]

/-- The `exit` branch with an extra argument: the farewell is printed and `exit` is called
with the converted argument; the running flag is not touched. -/
theorem executeBuiltin_exit_code (os : OS) (args : List Str) (a : Str)
    (ha : args[1]? = some a) (s : Shell) :
    executeBuiltin os "exit".toList args s =
      some { print "Goodbye!\n".toList (enter Handler.exitBranch args s) with
        exitCode := some (atoi (c_str a)) } := by
  have hlen : 1 < args.length := by
    by_contra hl
    rw [List.getElem?_eq_none (by omega)] at ha
    exact Option.noConfusion ha
  have hget : args[1] = a := by
    have := List.getElem?_eq_getElem (l := args) (n := 1) hlen
    rw [this] at ha
    exact Option.some.inj ha
  unfold executeBuiltin
  rw [if_pos rfl]
  dsimp only
  rw [dif_pos hlen, hget]

theorem line_ne_nil_of_tokens (line : Str) (h : parseCommand line ≠ []) : line ≠ [] := by
  intro e
  rw [e] at h
  exact h rfl

/-- The line `exit` in the loop: the loop ends without reading further lines, the process
has not called `exit`, and it terminates with status 0. -/
theorem runLoop_exit_plain (os : OS) (line : Str) (rest : List Str) (s : Shell)
    (hp : parseCommand line = ["exit".toList]) (hrun : s.running = true)
    (hlive : s.exitCode = none) :
    ∃ s2, runLoop os (line :: rest) s = some s2 ∧ s2.running = false ∧ s2.exitCode = none ∧
      processStatus s2 = 0 := by
  have hl : line ≠ [] := line_ne_nil_of_tokens line (by rw [hp]; exact List.cons_ne_nil _ _)
  have he := executeCommand_exit_line os line [] hp (printPrompt s)
  rw [executeBuiltin_exit_plain os _ (by simp)] at he
  have hc : (addToHistory line (printPrompt s)).exitCode = none :=
    (continues_addToHistory line (printPrompt s)).2.trans hlive
  rw [runLoop, if_pos hrun, if_neg hl, he]
  dsimp only
  have hx : (print "Goodbye!\n".toList (enter Handler.exitBranch ["exit".toList]
      (addToHistory line (printPrompt s)))).exitCode = none := hc
  rw [hx]
  simp only [Option.isSome_none, Bool.false_eq_true, if_false]
  rw [runLoop_stopped os rest _ rfl]
  exact ⟨_, rfl, rfl, rfl, by simp [processStatus, exitStatus]⟩

/-- The line `exit a ...` in the loop: the process terminates at once, `exit` having been
called with the converted argument; its status is the low 8 bits of that value. -/
theorem runLoop_exit_code (os : OS) (line a : Str) (more rest : List Str) (s : Shell)
    (hp : parseCommand line = "exit".toList :: a :: more) (hrun : s.running = true) :
    ∃ s2, runLoop os (line :: rest) s = some s2 ∧ s2.running = true ∧
      s2.exitCode = some (atoi (c_str a)) ∧ processStatus s2 = atoi (c_str a) % 256 := by
  have hl : line ≠ [] := line_ne_nil_of_tokens line (by rw [hp]; exact List.cons_ne_nil _ _)
  have he := executeCommand_exit_line os line (a :: more) hp (printPrompt s)
  rw [executeBuiltin_exit_code os _ a (by simp)] at he
  have hr : (addToHistory line (printPrompt s)).running = true :=
    (continues_addToHistory line (printPrompt s)).1.trans hrun
  rw [runLoop, if_pos hrun, if_neg hl, he]
  exact ⟨_, rfl, hr, rfl, rfl⟩

/-- C11 (as the code behaves).  In a running, live interpreter: `exit` without extra argument
clears the running flag and returns without terminating the process, so the loop ends
without reading further lines and the process terminates with status 0.  With an extra
argument `a` the process terminates at once, `exit` being called with `atoi a`; the running
flag is not used.  The status the process reports is the low 8 bits of that value: for an
integer `n` in the range of `int`, written in decimal, `exit` is called with `n` and the
status is `n mod 256`, which is `n` for `0 ≤ n ≤ 255` (`exit 3` gives 3); an argument without
a digit gives 0. -/
theorem exit_contract (os : OS) (s : Shell) (hrun : s.running = true)
    (hlive : s.exitCode = none) :
    (∀ args : List Str, args.length ≤ 1 →
      ∃ s2, executeBuiltin os "exit".toList args s = some s2 ∧
        s2.running = false ∧ s2.exitCode = none) ∧
    (∀ line rest, parseCommand line = ["exit".toList] →
      ∃ s2, runLoop os (line :: rest) s = some s2 ∧ s2.running = false ∧
        s2.exitCode = none ∧ processStatus s2 = 0) ∧
    (∀ (args : List Str) (a : Str), args[1]? = some a →
      ∃ s2, executeBuiltin os "exit".toList args s = some s2 ∧
        s2.exitCode = some (atoi (c_str a)) ∧ s2.running = true ∧
        processStatus s2 = atoi (c_str a) % 256) ∧
    (∀ line a more rest, parseCommand line = "exit".toList :: a :: more →
      ∃ s2, runLoop os (line :: rest) s = some s2 ∧
        s2.exitCode = some (atoi (c_str a)) ∧ s2.running = true ∧
        processStatus s2 = atoi (c_str a) % 256) ∧
    (∀ cwd env line rest, parseCommand line = ["exit".toList] →
      main os cwd env (line :: rest) = some 0) ∧
    (∀ cwd env line a more rest, parseCommand line = "exit".toList :: a :: more →
      main os cwd env (line :: rest) = some (atoi (c_str a) % 256)) ∧
    (∀ n : Int, -(2 ^ 31) ≤ n → n < 2 ^ 31 → atoi (c_str (decimal n)) = n) ∧
    (∀ n : Int, 0 ≤ n → n ≤ 255 → exitStatus (atoi (c_str (decimal n))) = n) ∧
    (∀ a : Str, (∀ c ∈ a, isdigit c = false) → atoi (c_str a) = 0) := by
  refine ⟨fun args hlen => ?_, fun line rest hp => runLoop_exit_plain os line rest s hp hrun hlive,
    fun args a ha => ?_, fun line a more rest hp => ?_, fun cwd env line rest hp => ?_,
    fun cwd env line a more rest hp => ?_, atoi_decimal, fun n h0 h1 => ?_, atoi_of_no_digit⟩
  · rw [executeBuiltin_exit_plain os args hlen]
    exact ⟨_, rfl, rfl, hlive⟩
  · rw [executeBuiltin_exit_code os args a ha]
    exact ⟨_, rfl, rfl, hrun, rfl⟩
  · obtain ⟨s2, h1, h2, h3, h4⟩ := runLoop_exit_code os line a more rest s hp hrun
    exact ⟨s2, h1, h3, h2, h4⟩
  · obtain ⟨s2, h1, _, _, h4⟩ := runLoop_exit_plain os line rest
      (print banner (init cwd env)) hp rfl rfl
    unfold main run
    rw [h1]
    exact congrArg some h4
  · obtain ⟨s2, h1, _, _, h4⟩ := runLoop_exit_code os line a more rest
      (print banner (init cwd env)) hp rfl
    unfold main run
    rw [h1]
    exact congrArg some h4
  · rw [atoi_decimal n (by omega) (by omega)]
    unfold exitStatus
    omega

theorem exit_contract_witness :
    main sampleOS (some "/home/user".toList) [] ["exit".toList, "ls".toList] = some 0 ∧
    main sampleOS (some "/home/user".toList) [] ["exit 3".toList, "ls".toList] = some 3 ∧
    main sampleOS none [] ["exit abc".toList] = some 0 ∧
    (∃ s2, runLoop sampleOS ["exit".toList, "ls".toList] sampleShell = some s2 ∧
      s2.running = false ∧ s2.exitCode = none ∧ processStatus s2 = 0) ∧
    exitStatus (atoi (c_str (decimal 255))) = 255 :=
  ⟨(exit_contract sampleOS sampleShell rfl rfl).2.2.2.2.1 (some "/home/user".toList) []
      "exit".toList ["ls".toList] (by decide),
   ((exit_contract sampleOS sampleShell rfl rfl).2.2.2.2.2.1 (some "/home/user".toList) []
      "exit 3".toList "3".toList [] ["ls".toList] (by decide)).trans (by decide),
   ((exit_contract sampleOS sampleShell rfl rfl).2.2.2.2.2.1 none []
      "exit abc".toList "abc".toList [] [] (by decide)).trans (by decide),
   (exit_contract sampleOS sampleShell rfl rfl).2.1 "exit".toList ["ls".toList] (by decide),
   (exit_contract sampleOS sampleShell rfl rfl).2.2.2.2.2.2.2.1 255 (by decide) (by decide)⟩

/-- C11 as stated fails for integers outside `0..255`: the line `exit 256` calls `exit` with
256 and the process terminates with status 0; `exit -1` gives status 255; and for
`exit 2147483648` the converted argument is not even the integer written. -/
theorem exit_contract_counterexample :
    (decimal 256 = "256".toList ∧
      (executeCommand sampleOS "exit 256".toList sampleShell).map Shell.exitCode =
        some (some 256) ∧
      main sampleOS none [] ["exit 256".toList] = some 0 ∧
      main sampleOS none [] ["exit 256".toList] ≠ some 256) ∧
    (decimal (-1) = "-1".toList ∧
      main sampleOS none [] ["exit -1".toList] = some 255) ∧
    (decimal 2147483648 = "2147483648".toList ∧
      (executeCommand sampleOS "exit 2147483648".toList sampleShell).map Shell.exitCode =
        some (some (-2147483648))) := by
  decide

theorem executeCommand_index_safe_witness :
    (∃ s2, executeCommand sampleOS "cd".toList sampleShell = some s2) ∧
    (∃ s2, executeCommand hostileOS "nosuch".toList sampleShell = some s2) ∧
    historyReads ["history".toList, "2".toList] fourShell.commandHistory.length = [2, 3] ∧
    historyReads ["history".toList, "-7".toList] fourShell.commandHistory.length =
      [0, 1, 2, 3] ∧
    startFor 2147483647 4 = 0 :=
  ⟨(executeCommand_index_safe sampleOS "cd".toList sampleShell).1,
   (executeCommand_index_safe hostileOS "nosuch".toList sampleShell).1,
   by decide, by decide, by decide⟩

end Shell
